import Mathlib

/-!
Verification of the timeline interval-algebra core of the hardcut pipeline
(`hardcut.py`, `bgm_create.py`, `final_mapping.py`).

Python floats are modelled as exact rationals (`ℚ`); Python `round(x, n)`
(banker's rounding, half to even) is modelled by `pyRoundInt`; fallible code
(uncaught `IndexError` / `ValueError`) is modelled with `Option` / `Except`.
Python's stable `list.sort(key=...)` is modelled by a stable insertion sort
(`sortByStart`), which agrees with any stable sort on the same key.
-/

/-- `EPS = 1e-6`, the tolerance constant of `hardcut.py`. -/
def EPS : ℚ := 1 / 1000000

theorem EPS_pos : 0 < EPS := by norm_num [EPS]

/-- Stable insertion by interval start: the new element goes before every
element whose start is not strictly smaller. -/
def insertByStart (p : ℚ × ℚ) : List (ℚ × ℚ) → List (ℚ × ℚ)
  | [] => [p]
  | q :: rest => if q.1 < p.1 then q :: insertByStart p rest else p :: q :: rest

/-- Stable sort by interval start, modelling `intervals.sort(key=lambda x: x[0])`. -/
def sortByStart : List (ℚ × ℚ) → List (ℚ × ℚ)
  | [] => []
  | p :: rest => insertByStart p (sortByStart rest)

/-- The comprehension
`[(min(a,b), max(a,b)) for a, b in intervals if abs(b - a) > EPS]`
from `_merge_intervals`. -/
def normFilter (l : List (ℚ × ℚ)) : List (ℚ × ℚ) :=
  (l.filter (fun p => EPS < |p.2 - p.1|)).map (fun p => (min p.1 p.2, max p.1 p.2))

/-- The sweep loop of `_merge_intervals`: running interval `(cs, ce)`,
absorb the next interval when `s ≤ ce + EPS`. -/
def mergeAux (cs ce : ℚ) : List (ℚ × ℚ) → List (ℚ × ℚ)
  | [] => [(cs, ce)]
  | (s, e) :: rest =>
    if s ≤ ce + EPS then mergeAux cs (max ce e) rest
    else (cs, ce) :: mergeAux s e rest

/-- `_merge_intervals` from `hardcut.py`.  A nonempty input list whose pairs are
all degenerate makes the Python code evaluate `intervals[0]` on an empty list
(an uncaught `IndexError`), modelled as `none`. -/
def mergeIntervals (l : List (ℚ × ℚ)) : Option (List (ℚ × ℚ)) :=
  if l = [] then some [] else
  match sortByStart (normFilter l) with
  | [] => none
  | (s, e) :: rest => some (mergeAux s e rest)

/-- The loop of `_build_keeps`: cursor `cur`, emit `(cur, s)` when
`s - cur > EPS`, advance `cur = max(cur, e)`; after the loop emit the trailing
keep when `duration - cur > EPS`. -/
def buildKeepsAux (duration cur : ℚ) : List (ℚ × ℚ) → List (ℚ × ℚ)
  | [] => if EPS < duration - cur then [(cur, duration)] else []
  | (s, e) :: rest =>
    if EPS < s - cur then (cur, s) :: buildKeepsAux duration (max cur e) rest
    else buildKeepsAux duration (max cur e) rest

/-- `_build_keeps` from `hardcut.py`. -/
def buildKeeps (cuts : List (ℚ × ℚ)) (duration : ℚ) : List (ℚ × ℚ) :=
  buildKeepsAux duration 0 cuts

/-- Total length of a list of intervals. -/
def sumLen (l : List (ℚ × ℚ)) : ℚ := (l.map (fun p => p.2 - p.1)).sum

theorem sumLen_nil : sumLen [] = 0 := rfl

theorem sumLen_cons (p : ℚ × ℚ) (l : List (ℚ × ℚ)) :
    sumLen (p :: l) = (p.2 - p.1) + sumLen l := by
  simp [sumLen]

-- ## Lemmas about the stable sort

theorem insertByStart_mem (p x : ℚ × ℚ) (l : List (ℚ × ℚ)) :
    x ∈ insertByStart p l ↔ x = p ∨ x ∈ l := by
  induction l with
  | nil => simp [insertByStart]
  | cons q rest ih =>
      by_cases h : q.1 < p.1
      · simp only [insertByStart, if_pos h, List.mem_cons, ih]
        tauto
      · simp only [insertByStart, if_neg h, List.mem_cons]

theorem insertByStart_length (p : ℚ × ℚ) (l : List (ℚ × ℚ)) :
    (insertByStart p l).length = l.length + 1 := by
  induction l with
  | nil => rfl
  | cons q rest ih =>
      by_cases h : q.1 < p.1
      · simp [insertByStart, if_pos h, ih]
      · simp [insertByStart, if_neg h]

theorem insertByStart_pairwise (p : ℚ × ℚ) (l : List (ℚ × ℚ))
    (h : List.Pairwise (fun a b : ℚ × ℚ => a.1 ≤ b.1) l) :
    List.Pairwise (fun a b : ℚ × ℚ => a.1 ≤ b.1) (insertByStart p l) := by
  induction l with
  | nil => simp [insertByStart]
  | cons q rest ih =>
      rw [List.pairwise_cons] at h
      by_cases hq : q.1 < p.1
      · rw [insertByStart, if_pos hq, List.pairwise_cons]
        refine ⟨fun x hx => ?_, ih h.2⟩
        rcases (insertByStart_mem p x rest).1 hx with hxp | hxr
        · exact hxp ▸ le_of_lt hq
        · exact h.1 x hxr
      · rw [insertByStart, if_neg hq, List.pairwise_cons]
        refine ⟨fun x hx => ?_, List.pairwise_cons.2 h⟩
        rcases List.mem_cons.1 hx with hxq | hxr
        · exact hxq ▸ le_of_not_lt hq
        · exact le_trans (le_of_not_lt hq) (h.1 x hxr)

theorem sortByStart_mem (x : ℚ × ℚ) (l : List (ℚ × ℚ)) :
    x ∈ sortByStart l ↔ x ∈ l := by
  induction l with
  | nil => simp [sortByStart]
  | cons p rest ih =>
      simp [sortByStart, insertByStart_mem, ih]

theorem sortByStart_length (l : List (ℚ × ℚ)) :
    (sortByStart l).length = l.length := by
  induction l with
  | nil => rfl
  | cons p rest ih => simp [sortByStart, insertByStart_length, ih]

theorem sortByStart_pairwise (l : List (ℚ × ℚ)) :
    List.Pairwise (fun a b : ℚ × ℚ => a.1 ≤ b.1) (sortByStart l) := by
  induction l with
  | nil => simp [sortByStart]
  | cons p rest ih => exact insertByStart_pairwise p _ ih

theorem sortByStart_eq_self (l : List (ℚ × ℚ))
    (h : List.Chain' (fun a b : ℚ × ℚ => a.1 ≤ b.1) l) : sortByStart l = l := by
  induction l with
  | nil => rfl
  | cons p rest ih =>
      rw [sortByStart, ih (List.Chain'.tail h)]
      cases rest with
      | nil => rfl
      | cons q rest2 =>
          have hpq : p.1 ≤ q.1 := (List.chain'_cons.1 h).1
          rw [insertByStart, if_neg (not_lt.2 hpq)]

-- ## Lemmas about the merge sweep

theorem mergeAux_head (l : List (ℚ × ℚ)) (cs ce : ℚ) :
    ∃ ce2 tl, mergeAux cs ce l = (cs, ce2) :: tl ∧ ce ≤ ce2 := by
  induction l generalizing ce with
  | nil => exact ⟨ce, [], rfl, le_refl ce⟩
  | cons p rest ih =>
      obtain ⟨s, e⟩ := p
      by_cases h : s ≤ ce + EPS
      · obtain ⟨ce2, tl, heq, hle⟩ := ih (max ce e)
        exact ⟨ce2, tl, by rw [mergeAux, if_pos h, heq],
          le_trans (le_max_left ce e) hle⟩
      · exact ⟨ce, mergeAux s e rest, by rw [mergeAux, if_neg h], le_refl ce⟩

theorem mergeAux_good (l : List (ℚ × ℚ)) (cs ce : ℚ)
    (hlen : ∀ p ∈ l, EPS < p.2 - p.1) (hce : EPS < ce - cs) :
    List.Chain' (fun a b : ℚ × ℚ => a.2 + EPS < b.1) (mergeAux cs ce l) ∧
    ∀ q ∈ mergeAux cs ce l, EPS < q.2 - q.1 := by
  induction l generalizing cs ce with
  | nil =>
      refine ⟨List.chain'_singleton _, fun q hq => ?_⟩
      rw [mergeAux, List.mem_singleton] at hq
      subst hq; exact hce
  | cons p rest ih =>
      obtain ⟨s, e⟩ := p
      by_cases h : s ≤ ce + EPS
      · rw [mergeAux, if_pos h]
        refine ih cs (max ce e) (fun q hq => hlen q (List.mem_cons_of_mem _ hq)) ?_
        calc EPS < ce - cs := hce
          _ ≤ max ce e - cs := by
              have := le_max_left ce e; linarith
      · rw [mergeAux, if_neg h]
        have hse : EPS < e - s := hlen (s, e) (List.mem_cons_self _ _)
        obtain ⟨hch, hlq⟩ := ih s e (fun q hq => hlen q (List.mem_cons_of_mem _ hq)) hse
        obtain ⟨ce2, tl, heq, _⟩ := mergeAux_head rest s e
        constructor
        · rw [heq] at hch ⊢
          exact List.chain'_cons.2 ⟨by simpa using not_le.1 h, hch⟩
        · intro q hq
          rcases List.mem_cons.1 hq with hq1 | hq2
          · subst hq1; exact hce
          · exact hlq q hq2

theorem mergeAux_covers (l : List (ℚ × ℚ)) (cs ce : ℚ)
    (hsort : List.Pairwise (fun a b : ℚ × ℚ => a.1 ≤ b.1) l)
    (hge : ∀ p ∈ l, cs ≤ p.1) :
    ∀ p ∈ (cs, ce) :: l, ∃ q ∈ mergeAux cs ce l, q.1 ≤ p.1 ∧ p.2 ≤ q.2 := by
  induction l generalizing cs ce with
  | nil =>
      intro p hp
      rw [List.mem_singleton] at hp
      subst hp
      exact ⟨(cs, ce), List.mem_singleton_self _, le_refl _, le_refl _⟩
  | cons hd rest ih =>
      obtain ⟨s, e⟩ := hd
      rw [List.pairwise_cons] at hsort
      intro p hp
      by_cases h : s ≤ ce + EPS
      · rw [mergeAux, if_pos h]
        have hcov := ih cs (max ce e) hsort.2
          (fun x hx => le_trans (hge (s, e) (List.mem_cons_self _ _)) (hsort.1 x hx))
        rcases List.mem_cons.1 hp with hp1 | hp2
        · subst hp1
          obtain ⟨q, hq, hq1, hq2⟩ := hcov (cs, max ce e) (List.mem_cons_self _ _)
          exact ⟨q, hq, hq1, le_trans (le_max_left ce e) hq2⟩
        rcases List.mem_cons.1 hp2 with hp3 | hp4
        · subst hp3
          obtain ⟨q, hq, hq1, hq2⟩ := hcov (cs, max ce e) (List.mem_cons_self _ _)
          exact ⟨q, hq, le_trans hq1 (hge (s, e) (List.mem_cons_self _ _)),
            le_trans (le_max_right ce e) hq2⟩
        · exact hcov p (List.mem_cons_of_mem _ hp4)
      · rw [mergeAux, if_neg h]
        rcases List.mem_cons.1 hp with hp1 | hp2
        · subst hp1
          exact ⟨(cs, ce), List.mem_cons_self _ _, le_refl _, le_refl _⟩
        · obtain ⟨q, hq, hq1, hq2⟩ := ih s e hsort.2 hsort.1 p hp2
          exact ⟨q, List.mem_cons_of_mem _ hq, hq1, hq2⟩

theorem mergeAux_of_separated (l : List (ℚ × ℚ)) (s e : ℚ)
    (h : List.Chain' (fun a b : ℚ × ℚ => a.2 + EPS < b.1) ((s, e) :: l)) :
    mergeAux s e l = (s, e) :: l := by
  induction l generalizing s e with
  | nil => rfl
  | cons hd rest ih =>
      obtain ⟨s2, e2⟩ := hd
      have h1 : e + EPS < s2 := (List.chain'_cons.1 h).1
      rw [mergeAux, if_neg (not_le.2 h1), ih s2 e2 (List.Chain'.tail h)]

theorem mergeAux_sumLen (l : List (ℚ × ℚ)) (cs ce : ℚ)
    (hlen : ∀ p ∈ l, EPS < p.2 - p.1) :
    sumLen (mergeAux cs ce l) ≤ (ce - cs) + sumLen l + EPS * l.length := by
  induction l generalizing cs ce with
  | nil =>
      rw [mergeAux, sumLen_cons, sumLen_nil, List.length_nil]
      push_cast
      linarith
  | cons hd rest ih =>
      obtain ⟨s, e⟩ := hd
      have hse : EPS < e - s := by
        simpa using hlen (s, e) (List.mem_cons_self _ _)
      have hlen2 : ∀ p ∈ rest, EPS < p.2 - p.1 :=
        fun p hp => hlen p (List.mem_cons_of_mem _ hp)
      rw [sumLen_cons, List.length_cons]
      by_cases h : s ≤ ce + EPS
      · rw [mergeAux, if_pos h]
        have hrec := ih cs (max ce e) hlen2
        have hmax : max ce e - cs ≤ (ce - cs) + (e - s) + EPS := by
          rcases max_cases ce e with ⟨hm, _⟩ | ⟨hm, _⟩
          · rw [hm]; linarith [EPS_pos]
          · rw [hm]; linarith
        push_cast
        push_cast at hrec
        linarith
      · rw [mergeAux, if_neg h, sumLen_cons]
        have hrec := ih s e hlen2
        push_cast
        push_cast at hrec
        linarith [EPS_pos]

theorem mergeAux_endpoints (l : List (ℚ × ℚ)) (cs ce : ℚ) :
    ∀ q ∈ mergeAux cs ce l,
      (q.1 = cs ∨ ∃ p ∈ l, p.1 = q.1) ∧ (q.2 = ce ∨ ∃ p ∈ l, p.2 = q.2) := by
  induction l generalizing cs ce with
  | nil =>
      intro q hq
      rw [mergeAux, List.mem_singleton] at hq
      subst hq
      exact ⟨Or.inl rfl, Or.inl rfl⟩
  | cons hd rest ih =>
      obtain ⟨s, e⟩ := hd
      intro q hq
      by_cases h : s ≤ ce + EPS
      · rw [mergeAux, if_pos h] at hq
        obtain ⟨h1, h2⟩ := ih cs (max ce e) q hq
        refine ⟨?_, ?_⟩
        · rcases h1 with h1 | ⟨p, hp, hp1⟩
          · exact Or.inl h1
          · exact Or.inr ⟨p, List.mem_cons_of_mem _ hp, hp1⟩
        · rcases h2 with h2 | ⟨p, hp, hp2⟩
          · rcases max_cases ce e with ⟨hm, _⟩ | ⟨hm, _⟩
            · exact Or.inl (by rw [h2, hm])
            · exact Or.inr ⟨(s, e), List.mem_cons_self _ _, by rw [h2, hm]⟩
          · exact Or.inr ⟨p, List.mem_cons_of_mem _ hp, hp2⟩
      · rw [mergeAux, if_neg h] at hq
        rcases List.mem_cons.1 hq with rfl | hq2
        · exact ⟨Or.inl rfl, Or.inl rfl⟩
        · obtain ⟨h1, h2⟩ := ih s e q hq2
          refine ⟨?_, ?_⟩
          · rcases h1 with h1 | ⟨p, hp, hp1⟩
            · exact Or.inr ⟨(s, e), List.mem_cons_self _ _, h1.symm⟩
            · exact Or.inr ⟨p, List.mem_cons_of_mem _ hp, hp1⟩
          · rcases h2 with h2 | ⟨p, hp, hp2⟩
            · exact Or.inr ⟨(s, e), List.mem_cons_self _ _, h2.symm⟩
            · exact Or.inr ⟨p, List.mem_cons_of_mem _ hp, hp2⟩

-- ## Properties of normFilter

theorem normFilter_mem (l : List (ℚ × ℚ)) :
    ∀ q ∈ normFilter l, EPS < q.2 - q.1 := by
  intro q hq
  obtain ⟨p, hp, hpq⟩ := List.mem_map.1 hq
  have habs : EPS < |p.2 - p.1| := by simpa using List.of_mem_filter hp
  rw [← hpq]
  simpa [max_sub_min_eq_abs] using habs

theorem normFilter_cover (l : List (ℚ × ℚ)) (p : ℚ × ℚ) (hp : p ∈ l)
    (hlen : EPS < |p.2 - p.1|) : (min p.1 p.2, max p.1 p.2) ∈ normFilter l := by
  refine List.mem_map.2 ⟨p, ?_, rfl⟩
  exact List.mem_filter.2 ⟨hp, by simpa using hlen⟩

theorem normFilter_eq_self (l : List (ℚ × ℚ))
    (h : ∀ q ∈ l, EPS < q.2 - q.1) : normFilter l = l := by
  induction l with
  | nil => rfl
  | cons q rest ih =>
      have hq := h q (List.mem_cons_self _ _)
      have h1 : q.1 ≤ q.2 := by linarith [EPS_pos]
      have habs : EPS < |q.2 - q.1| := by
        rwa [abs_of_nonneg (by linarith : (0:ℚ) ≤ q.2 - q.1)]
      rw [normFilter, List.filter_cons, if_pos (by simpa using habs)]
      rw [normFilter] at ih
      simp only [List.map_cons, min_eq_left h1, max_eq_right h1,
        ih (fun x hx => h x (List.mem_cons_of_mem _ hx))]

theorem normFilter_eq_nil (l : List (ℚ × ℚ))
    (h : ∀ p ∈ l, |p.2 - p.1| ≤ EPS) : normFilter l = [] := by
  induction l with
  | nil => rfl
  | cons q rest ih =>
      have hq : ¬ (EPS < |q.2 - q.1|) := not_lt.2 (h q (List.mem_cons_self _ _))
      rw [normFilter, List.filter_cons, if_neg (by simpa using hq)]
      exact ih (fun p hp => h p (List.mem_cons_of_mem _ hp))

theorem normFilter_src (l : List (ℚ × ℚ)) (x : ℚ × ℚ) (hx : x ∈ normFilter l) :
    ∃ p ∈ l, EPS < |p.2 - p.1| ∧ (min p.1 p.2, max p.1 p.2) = x := by
  obtain ⟨p, hp, hpx⟩ := List.mem_map.1 hx
  exact ⟨p, (List.mem_filter.1 hp).1,
    by simpa using (List.mem_filter.1 hp).2, hpx⟩

theorem insertByStart_sumLen (p : ℚ × ℚ) (l : List (ℚ × ℚ)) :
    sumLen (insertByStart p l) = (p.2 - p.1) + sumLen l := by
  induction l with
  | nil => rw [insertByStart, sumLen_cons, sumLen_nil]
  | cons q rest ih =>
      by_cases h : q.1 < p.1
      · rw [insertByStart, if_pos h, sumLen_cons, ih, sumLen_cons]
        ring
      · rw [insertByStart, if_neg h, sumLen_cons, sumLen_cons]

theorem sortByStart_sumLen (l : List (ℚ × ℚ)) :
    sumLen (sortByStart l) = sumLen l := by
  induction l with
  | nil => rfl
  | cons p rest ih => rw [sortByStart, insertByStart_sumLen, ih, sumLen_cons]

-- ## Claim C2 (Interval Merger contract)

/-- Claim C2 (counterexample): the merger, as implemented, does not return a
result for every finite list: the nonempty input `[(1, 1)]`, whose only pair is
degenerate and must be discarded, makes the code index into an empty list
(uncaught `IndexError`) instead of returning the empty cover. -/
theorem C2_cex : mergeIntervals [((1:ℚ), 1)] = none := by
  norm_num [mergeIntervals, normFilter, List.filter_cons, sortByStart,
    insertByStart, mergeAux, EPS]

theorem mergeIntervals_total (l : List (ℚ × ℚ))
    (h : ∃ p ∈ l, EPS < |p.2 - p.1|) : ∃ r, mergeIntervals l = some r := by
  obtain ⟨p, hp, hlen⟩ := h
  have hne : l ≠ [] := by rintro rfl; exact absurd hp (List.not_mem_nil p)
  have hmem : (min p.1 p.2, max p.1 p.2) ∈ sortByStart (normFilter l) :=
    (sortByStart_mem _ _).2 (normFilter_cover l p hp hlen)
  rw [mergeIntervals, if_neg hne]
  cases hs : sortByStart (normFilter l) with
  | nil => rw [hs] at hmem; exact absurd hmem (List.not_mem_nil _)
  | cons hd tl => obtain ⟨a, b⟩ := hd; exact ⟨_, rfl⟩

theorem mergeIntervals_none_of_degenerate (l : List (ℚ × ℚ)) (hne : l ≠ [])
    (h : ∀ p ∈ l, |p.2 - p.1| ≤ EPS) : mergeIntervals l = none := by
  rw [mergeIntervals, if_neg hne, normFilter_eq_nil l h]
  rfl

theorem mergeIntervals_sound (l : List (ℚ × ℚ)) (r : List (ℚ × ℚ))
    (hr : mergeIntervals l = some r) :
    List.Chain' (fun a b : ℚ × ℚ => a.2 + EPS < b.1) r ∧
    (∀ q ∈ r, EPS < q.2 - q.1) ∧
    (∀ p ∈ l, EPS < |p.2 - p.1| →
      ∃ q ∈ r, q.1 ≤ min p.1 p.2 ∧ max p.1 p.2 ≤ q.2) ∧
    (∀ q ∈ r, (∃ p ∈ l, EPS < |p.2 - p.1| ∧ min p.1 p.2 = q.1) ∧
      (∃ p ∈ l, EPS < |p.2 - p.1| ∧ max p.1 p.2 = q.2)) ∧
    sumLen r ≤ sumLen (normFilter l) + EPS * (normFilter l).length := by
  by_cases hne : l = []
  · subst hne
    simp only [mergeIntervals, if_pos, Option.some.injEq] at hr
    subst hr
    exact ⟨List.chain'_nil, by simp, by simp, by simp,
      by norm_num [sumLen_nil, normFilter]⟩
  · rw [mergeIntervals, if_neg hne] at hr
    cases hs : sortByStart (normFilter l) with
    | nil => rw [hs] at hr; exact absurd hr (by simp)
    | cons hd tl =>
        rw [hs] at hr
        obtain ⟨s, e⟩ := hd
        simp only [Option.some.injEq] at hr
        have hsortall : List.Pairwise (fun a b : ℚ × ℚ => a.1 ≤ b.1) ((s, e) :: tl) := by
          rw [← hs]; exact sortByStart_pairwise _
        have hlenall : ∀ q ∈ (s, e) :: tl, EPS < q.2 - q.1 := by
          intro q hq
          exact normFilter_mem l q ((sortByStart_mem _ _).1 (hs ▸ hq))
        have hsym : ∀ x ∈ (s, e) :: tl,
            ∃ p ∈ l, EPS < |p.2 - p.1| ∧ (min p.1 p.2, max p.1 p.2) = x := by
          intro x hx
          exact normFilter_src l x ((sortByStart_mem _ _).1 (hs ▸ hx))
        have hse : EPS < e - s := hlenall (s, e) (List.mem_cons_self _ _)
        have hgood := mergeAux_good tl s e
          (fun q hq => hlenall q (List.mem_cons_of_mem _ hq)) hse
        subst hr
        refine ⟨hgood.1, hgood.2, fun p hp hplen => ?_, fun q hq => ?_, ?_⟩
        · have hmem : (min p.1 p.2, max p.1 p.2) ∈ (s, e) :: tl :=
            hs ▸ (sortByStart_mem _ _).2 (normFilter_cover l p hp hplen)
          have hcov := mergeAux_covers tl s e (List.pairwise_cons.1 hsortall).2
            (List.pairwise_cons.1 hsortall).1
          rcases List.mem_cons.1 hmem with h1 | h2
          · have h1' : min p.1 p.2 = s ∧ max p.1 p.2 = e := by
              constructor <;> (rw [Prod.ext_iff] at h1; simp_all)
            obtain ⟨q, hq, hq1, hq2⟩ := hcov (s, e) (List.mem_cons_self _ _)
            exact ⟨q, hq, by rw [h1'.1]; exact hq1, by rw [h1'.2]; exact hq2⟩
          · obtain ⟨q, hq, hq1, hq2⟩ := hcov (min p.1 p.2, max p.1 p.2)
              (List.mem_cons_of_mem _ h2)
            exact ⟨q, hq, hq1, hq2⟩
        · obtain ⟨h1, h2⟩ := mergeAux_endpoints tl s e q hq
          constructor
          · rcases h1 with h1 | ⟨pp, hpp, hpp1⟩
            · obtain ⟨p, hpl, hplen, hpe⟩ := hsym (s, e) (List.mem_cons_self _ _)
              rw [Prod.mk.injEq] at hpe
              exact ⟨p, hpl, hplen, by rw [hpe.1, ← h1]⟩
            · obtain ⟨p, hpl, hplen, hpe⟩ := hsym pp (List.mem_cons_of_mem _ hpp)
              exact ⟨p, hpl, hplen, by rw [← hpp1, ← hpe]⟩
          · rcases h2 with h2 | ⟨pp, hpp, hpp2⟩
            · obtain ⟨p, hpl, hplen, hpe⟩ := hsym (s, e) (List.mem_cons_self _ _)
              rw [Prod.mk.injEq] at hpe
              exact ⟨p, hpl, hplen, by rw [hpe.2, ← h2]⟩
            · obtain ⟨p, hpl, hplen, hpe⟩ := hsym pp (List.mem_cons_of_mem _ hpp)
              exact ⟨p, hpl, hplen, by rw [← hpp2, ← hpe]⟩
        · have hs1 := mergeAux_sumLen tl s e
            (fun q hq => hlenall q (List.mem_cons_of_mem _ hq))
          have hsum2 : (e - s) + sumLen tl = sumLen (normFilter l) := by
            have h0 := sortByStart_sumLen (normFilter l)
            rw [hs, sumLen_cons] at h0
            simpa using h0
          have hlen3 : tl.length + 1 = (normFilter l).length := by
            have h0 := sortByStart_length (normFilter l)
            rw [hs, List.length_cons] at h0
            exact h0
          rw [← hlen3, ← hsum2]
          push_cast
          push_cast at hs1
          linarith [EPS_pos]

/-- Claim C2 (amended): the merger returns, for the empty input and for every
input containing at least one pair of length `> EPS`, a minimal disjoint cover
of the inputs (up to `EPS`): the result is sorted ascending by start with
consecutive intervals separated by more than `EPS`, every result interval is
longer than `EPS`, every normalized non-degenerate input pair is contained in
some result interval, every result interval's start and end are attained by
normalized non-degenerate input pairs, and the total result length exceeds the
filtered inputs' total length by at most `EPS` per input (the cover adds
nothing beyond the `≤ EPS` bridged gaps, so no strictly smaller disjoint
ε-separated cover of the inputs exists); however a nonempty input all of whose
pairs have length `≤ EPS` does not return the empty cover: the code indexes
into the empty filtered list and raises an uncaught `IndexError`. -/
theorem C2_merge_contract (l : List (ℚ × ℚ)) :
    (l = [] → mergeIntervals l = some []) ∧
    ((∃ p ∈ l, EPS < |p.2 - p.1|) → ∃ r, mergeIntervals l = some r) ∧
    (l ≠ [] → (∀ p ∈ l, |p.2 - p.1| ≤ EPS) → mergeIntervals l = none) ∧
    (∀ r, mergeIntervals l = some r →
      List.Chain' (fun a b : ℚ × ℚ => a.2 + EPS < b.1) r ∧
      (∀ q ∈ r, EPS < q.2 - q.1) ∧
      (∀ p ∈ l, EPS < |p.2 - p.1| →
        ∃ q ∈ r, q.1 ≤ min p.1 p.2 ∧ max p.1 p.2 ≤ q.2) ∧
      (∀ q ∈ r, (∃ p ∈ l, EPS < |p.2 - p.1| ∧ min p.1 p.2 = q.1) ∧
        (∃ p ∈ l, EPS < |p.2 - p.1| ∧ max p.1 p.2 = q.2)) ∧
      sumLen r ≤ sumLen (normFilter l) + EPS * (normFilter l).length) :=
  ⟨fun h => by rw [h, mergeIntervals]; rfl,
    mergeIntervals_total l,
    mergeIntervals_none_of_degenerate l,
    fun r hr => mergeIntervals_sound l r hr⟩

/-- Claim C2 (witness): the amended contract applied to the concrete input
`[(3,1), (2,7)]` (an inverted pair plus an overlapping pair), and the general
all-degenerate clause applied to `[(1,1), (2,2)]`. -/
theorem C2_merge_contract_witness :
    mergeIntervals [((3:ℚ), 1), (2, 7)] = some [(1, 7)] ∧
    (List.Chain' (fun a b : ℚ × ℚ => a.2 + EPS < b.1) [((1:ℚ), 7)] ∧
      (∀ q ∈ [((1:ℚ), 7)], EPS < q.2 - q.1) ∧
      (∀ p ∈ [((3:ℚ), 1), (2, 7)], EPS < |p.2 - p.1| →
        ∃ q ∈ [((1:ℚ), 7)], q.1 ≤ min p.1 p.2 ∧ max p.1 p.2 ≤ q.2) ∧
      (∀ q ∈ [((1:ℚ), 7)],
        (∃ p ∈ [((3:ℚ), 1), (2, 7)], EPS < |p.2 - p.1| ∧ min p.1 p.2 = q.1) ∧
        (∃ p ∈ [((3:ℚ), 1), (2, 7)], EPS < |p.2 - p.1| ∧ max p.1 p.2 = q.2)) ∧
      sumLen [((1:ℚ), 7)] ≤
        sumLen (normFilter [((3:ℚ), 1), (2, 7)]) +
          EPS * (normFilter [((3:ℚ), 1), (2, 7)]).length) ∧
    mergeIntervals [((1:ℚ), 1), (2, 2)] = none := by
  have hm : mergeIntervals [((3:ℚ), 1), (2, 7)] = some [(1, 7)] := by
    norm_num [mergeIntervals, normFilter, List.filter_cons, sortByStart,
      insertByStart, mergeAux, EPS, min_def, max_def, abs, List.cons_ne_nil]
  exact ⟨hm, (C2_merge_contract [((3:ℚ), 1), (2, 7)]).2.2.2 [(1, 7)] hm,
    (C2_merge_contract [((1:ℚ), 1), (2, 2)]).2.2.1 (by simp)
      (by norm_num [EPS])⟩

-- ## Claim C3 (merge idempotence)

theorem chainSepStarts (l : List (ℚ × ℚ))
    (hch : List.Chain' (fun a b : ℚ × ℚ => a.2 + EPS < b.1) l)
    (hlen : ∀ q ∈ l, EPS < q.2 - q.1) :
    List.Chain' (fun a b : ℚ × ℚ => a.1 ≤ b.1) l := by
  induction l with
  | nil => exact List.chain'_nil
  | cons x rest ih =>
      cases rest with
      | nil => exact List.chain'_singleton _
      | cons y rest2 =>
          rw [List.chain'_cons] at hch ⊢
          have hx : EPS < x.2 - x.1 := hlen x (List.mem_cons_self _ _)
          exact ⟨by linarith [EPS_pos, hch.1],
            ih hch.2 (fun q hq => hlen q (List.mem_cons_of_mem _ hq))⟩

/-- Claim C3: merging twice gives the same result as merging once; stated with
`Option.bind` so that the crashing case (`none`) is covered as well. -/
theorem C3_merge_idempotent (l : List (ℚ × ℚ)) :
    (mergeIntervals l).bind mergeIntervals = mergeIntervals l := by
  cases hr : mergeIntervals l with
  | none => rfl
  | some r =>
      have hbind : (some r).bind mergeIntervals = mergeIntervals r := rfl
      rw [hbind]
      cases r with
      | nil => rw [mergeIntervals]; rfl
      | cons hd tl =>
          obtain ⟨hch, hlen, _⟩ := mergeIntervals_sound l _ hr
          have hne : hd :: tl ≠ [] := List.cons_ne_nil _ _
          have hstart := chainSepStarts (hd :: tl) hch hlen
          have hnf : normFilter (hd :: tl) = hd :: tl := normFilter_eq_self _ hlen
          have hss : sortByStart (hd :: tl) = hd :: tl := sortByStart_eq_self _ hstart
          rw [mergeIntervals, if_neg hne, hnf, hss]
          obtain ⟨s, e⟩ := hd
          show some (mergeAux s e tl) = some ((s, e) :: tl)
          rw [mergeAux_of_separated tl s e hch]

-- ## Claim C1 (keep/cut partition)

theorem buildKeepsAux_lb (C : List (ℚ × ℚ)) (D cur : ℚ) :
    ∀ k ∈ buildKeepsAux D cur C, cur ≤ k.1 := by
  induction C generalizing cur with
  | nil =>
      intro k hk
      rw [buildKeepsAux] at hk
      by_cases h : EPS < D - cur
      · rw [if_pos h, List.mem_singleton] at hk; subst hk; exact le_refl _
      · rw [if_neg h] at hk; exact absurd hk (List.not_mem_nil _)
  | cons hd rest ih =>
      obtain ⟨s, e⟩ := hd
      intro k hk
      rw [buildKeepsAux] at hk
      by_cases h : EPS < s - cur
      · rw [if_pos h] at hk
        rcases List.mem_cons.1 hk with h1 | h2
        · subst h1; exact le_refl _
        · exact le_trans (le_max_left cur e) (ih (max cur e) k h2)
      · rw [if_neg h] at hk
        exact le_trans (le_max_left cur e) (ih (max cur e) k hk)

theorem buildKeepsAux_disjoint (C : List (ℚ × ℚ)) (D cur : ℚ)
    (hsort : List.Pairwise (fun a b : ℚ × ℚ => a.2 ≤ b.1) C)
    (hrange : ∀ p ∈ C, cur ≤ p.1 ∧ p.1 ≤ p.2) :
    ∀ k ∈ buildKeepsAux D cur C, ∀ c ∈ C, min k.2 c.2 ≤ max k.1 c.1 := by
  induction C generalizing cur with
  | nil => intro k _ c hc; exact absurd hc (List.not_mem_nil _)
  | cons hd rest ih =>
      obtain ⟨s, e⟩ := hd
      rw [List.pairwise_cons] at hsort
      have hse : cur ≤ s ∧ s ≤ e := hrange (s, e) (List.mem_cons_self _ _)
      intro k hk c hc
      rw [buildKeepsAux] at hk
      have hrec : ∀ k ∈ buildKeepsAux D (max cur e) rest,
          ∀ c ∈ rest, min k.2 c.2 ≤ max k.1 c.1 := by
        refine ih (max cur e) hsort.2 (fun p hp => ⟨?_, (hrange p (List.mem_cons_of_mem _ hp)).2⟩)
        exact max_le (hrange p (List.mem_cons_of_mem _ hp)).1 (hsort.1 p hp)
      have hlb := buildKeepsAux_lb rest D (max cur e)
      by_cases h : EPS < s - cur
      · rw [if_pos h] at hk
        rcases List.mem_cons.1 hk with h1 | h2
        · subst h1
          rcases List.mem_cons.1 hc with h3 | h4
          · subst h3
            simp only [min_def, max_def]
            split <;> split <;> simp_all <;> linarith
          · have hsc : e ≤ c.1 := hsort.1 c h4
            calc min s c.2 ≤ s := min_le_left _ _
              _ ≤ e := hse.2
              _ ≤ c.1 := hsc
              _ ≤ max cur c.1 := le_max_right _ _
        · rcases List.mem_cons.1 hc with h3 | h4
          · subst h3
            have hk1 : e ≤ k.1 := le_trans (le_max_right cur e) (hlb k h2)
            calc min k.2 e ≤ e := min_le_right _ _
              _ ≤ k.1 := hk1
              _ ≤ max k.1 s := le_max_left _ _
          · exact hrec k h2 c h4
      · rw [if_neg h] at hk
        rcases List.mem_cons.1 hc with h3 | h4
        · subst h3
          have hk1 : e ≤ k.1 := le_trans (le_max_right cur e) (hlb k hk)
          calc min k.2 e ≤ e := min_le_right _ _
            _ ≤ k.1 := hk1
            _ ≤ max k.1 s := le_max_left _ _
        · exact hrec k hk c h4

theorem buildKeepsAux_sum (C : List (ℚ × ℚ)) (D cur : ℚ)
    (hcur : cur ≤ D)
    (hsort : List.Pairwise (fun a b : ℚ × ℚ => a.2 ≤ b.1) C)
    (hrange : ∀ p ∈ C, cur ≤ p.1 ∧ p.1 ≤ p.2 ∧ p.2 ≤ D) :
    0 ≤ D - cur - (sumLen (buildKeepsAux D cur C) + sumLen C) ∧
    D - cur - (sumLen (buildKeepsAux D cur C) + sumLen C) ≤ EPS * (C.length + 1) := by
  induction C generalizing cur with
  | nil =>
      rw [buildKeepsAux]
      by_cases h : EPS < D - cur
      · rw [if_pos h]
        simp only [sumLen_cons, sumLen_nil, List.length_nil]
        constructor <;> [linarith; nlinarith [EPS_pos]]
      · rw [if_neg h]
        simp only [sumLen_nil, List.length_nil]
        push_neg at h
        constructor <;> [linarith; nlinarith [EPS_pos]]
  | cons hd rest ih =>
      obtain ⟨s, e⟩ := hd
      rw [List.pairwise_cons] at hsort
      obtain ⟨hcs, hse, heD⟩ := hrange (s, e) (List.mem_cons_self _ _)
      have hmax : max cur e = e := max_eq_right (le_trans hcs hse)
      have hrec := ih (max cur e) (by rw [hmax]; exact heD) hsort.2
        (fun p hp => ⟨max_le (hrange p (List.mem_cons_of_mem _ hp)).1 (hsort.1 p hp),
          (hrange p (List.mem_cons_of_mem _ hp)).2.1,
          (hrange p (List.mem_cons_of_mem _ hp)).2.2⟩)
      rw [hmax] at hrec
      rw [buildKeepsAux, hmax]
      by_cases h : EPS < s - cur
      · rw [if_pos h]
        simp only [sumLen_cons, List.length_cons] at hrec ⊢
        push_cast
        constructor <;> nlinarith [EPS_pos, hrec.1, hrec.2]
      · rw [if_neg h]
        push_neg at h
        simp only [sumLen_cons, List.length_cons] at hrec ⊢
        push_cast
        constructor <;> nlinarith [EPS_pos, hrec.1, hrec.2, hcs]

/-- Claim C1 (counterexample): for `D = 10` and the merged cut-set
`C = [(1e-6, 10 - 1e-6)]` (sorted, disjoint, inside `[0, 10]`), both the gap
before the cut and the gap after it are skipped (each is exactly `EPS`), so
`Σ keep + Σ cut = 10 - 2e-6` and the conservation error `2e-6` exceeds the
claimed bound `EPS * |C| = 1e-6`. -/
theorem C1_cex :
    buildKeeps [((1:ℚ)/1000000, 10 - 1/1000000)] 10 = [] ∧
    ¬ (10 - (sumLen (buildKeeps [((1:ℚ)/1000000, 10 - 1/1000000)] 10) +
        sumLen [((1:ℚ)/1000000, 10 - 1/1000000)]) ≤
      EPS * ([((1:ℚ)/1000000, 10 - 1/1000000)].length)) := by
  constructor
  · norm_num [buildKeeps, buildKeepsAux, EPS, max_def]
  · norm_num [buildKeeps, buildKeepsAux, sumLen, EPS, max_def]

/-- Claim C1 (amended): for every duration `D > 0` and merged cut-set `C`
(sorted, pairwise disjoint, contained in `[0, D]`), the keep-set built by
`_build_keeps` never overlaps a cut interval, and
`Σ keep + Σ cut` underestimates `D` by at most `EPS * (|C| + 1)`
(one skipped gap of at most `EPS` before each cut and one after the last cut;
the claimed bound `EPS * |C|` is too small by one gap). -/
theorem C1_keep_cut_partition (D : ℚ) (C : List (ℚ × ℚ))
    (hD : 0 < D)
    (hsort : List.Pairwise (fun a b : ℚ × ℚ => a.2 ≤ b.1) C)
    (hrange : ∀ p ∈ C, 0 ≤ p.1 ∧ p.1 ≤ p.2 ∧ p.2 ≤ D) :
    (∀ k ∈ buildKeeps C D, ∀ c ∈ C, min k.2 c.2 ≤ max k.1 c.1) ∧
    0 ≤ D - (sumLen (buildKeeps C D) + sumLen C) ∧
    D - (sumLen (buildKeeps C D) + sumLen C) ≤ EPS * (C.length + 1) := by
  have hdisj := buildKeepsAux_disjoint C D 0 hsort
    (fun p hp => ⟨(hrange p hp).1, (hrange p hp).2.1⟩)
  have hsum := buildKeepsAux_sum C D 0 (le_of_lt hD) hsort hrange
  rw [sub_zero] at hsum
  exact ⟨hdisj, hsum.1, hsum.2⟩

/-- Claim C1 (witness): concrete scenario 1 — `duration = 100`,
raw cuts `[(0,2), (1,3), (50, 50.5)]` merge to `[(0,3), (50, 50.5)]` and
yield keeps `[(3,50), (50.5,100)]`; the amended theorem applied there. -/
theorem C1_keep_cut_partition_witness :
    mergeIntervals [((0:ℚ), 2), (1, 3), (50, 50.5)] = some [(0, 3), (50, 50.5)] ∧
    buildKeeps [((0:ℚ), 3), (50, 50.5)] 100 = [(3, 50), (50.5, 100)] ∧
    ((∀ k ∈ buildKeeps [((0:ℚ), 3), (50, 50.5)] 100,
        ∀ c ∈ [((0:ℚ), 3), (50, 50.5)], min k.2 c.2 ≤ max k.1 c.1) ∧
      0 ≤ 100 - (sumLen (buildKeeps [((0:ℚ), 3), (50, 50.5)] 100) +
        sumLen [((0:ℚ), 3), (50, 50.5)]) ∧
      100 - (sumLen (buildKeeps [((0:ℚ), 3), (50, 50.5)] 100) +
        sumLen [((0:ℚ), 3), (50, 50.5)]) ≤
        EPS * (([((0:ℚ), 3), (50, 50.5)].length) + 1)) := by
  refine ⟨?_, ?_, C1_keep_cut_partition 100 [((0:ℚ), 3), (50, 50.5)] (by norm_num)
    (by norm_num [List.pairwise_cons]) (by norm_num)⟩
  · norm_num [mergeIntervals, normFilter, List.filter_cons, sortByStart,
      insertByStart, mergeAux, EPS, min_def, max_def, abs, List.cons_ne_nil]
  · norm_num [buildKeeps, buildKeepsAux, EPS, max_def]

-- ## Python rounding (banker's rounding, `round(x, n)`)

/-- Python 3 `round` to an integer: round half to even, otherwise to nearest. -/
def pyRoundInt (q : ℚ) : ℤ :=
  if 2 * (q - ⌊q⌋) = 1 then (if ⌊q⌋ % 2 = 0 then ⌊q⌋ else ⌊q⌋ + 1) else round q

/-- Python `round(x, 2)`. -/
def round2 (q : ℚ) : ℚ := pyRoundInt (q * 100) / 100

/-- Python `round(x, 3)`. -/
def round3 (q : ℚ) : ℚ := pyRoundInt (q * 1000) / 1000

theorem pyRoundInt_le (q : ℚ) : (pyRoundInt q : ℚ) ≤ q + 1 / 2 := by
  rw [pyRoundInt]
  by_cases h : 2 * (q - ⌊q⌋) = 1
  · rw [if_pos h]
    by_cases hp : ⌊q⌋ % 2 = 0
    · rw [if_pos hp]; linarith
    · rw [if_neg hp]; push_cast; linarith
  · rw [if_neg h, round_eq]
    linarith [Int.floor_le (q + 1 / 2)]

theorem le_pyRoundInt (q : ℚ) : q - 1 / 2 ≤ (pyRoundInt q : ℚ) := by
  rw [pyRoundInt]
  by_cases h : 2 * (q - ⌊q⌋) = 1
  · rw [if_pos h]
    by_cases hp : ⌊q⌋ % 2 = 0
    · rw [if_pos hp]; linarith
    · rw [if_neg hp]; push_cast; linarith
  · rw [if_neg h, round_eq]
    linarith [Int.lt_floor_add_one (q + 1 / 2)]

theorem pyRoundInt_mono {a b : ℚ} (h : a ≤ b) : pyRoundInt a ≤ pyRoundInt b := by
  rcases eq_or_lt_of_le h with rfl | hlt
  · exact le_refl _
  · have h1 := pyRoundInt_le a
    have h2 := le_pyRoundInt b
    have h3 : (pyRoundInt a : ℚ) < (pyRoundInt b : ℚ) + 1 := by linarith
    exact Int.lt_add_one_iff.1 (by exact_mod_cast h3)

theorem pyRoundInt_gap {a b : ℚ} (h : a + 1 < b) : pyRoundInt a + 1 ≤ pyRoundInt b := by
  have h1 := pyRoundInt_le a
  have h2 := le_pyRoundInt b
  have h3 : (pyRoundInt a : ℚ) < (pyRoundInt b : ℚ) := by linarith
  exact Int.add_one_le_iff.2 (by exact_mod_cast h3)

theorem round2_mono {a b : ℚ} (h : a ≤ b) : round2 a ≤ round2 b := by
  rw [round2, round2]
  have h1 : (pyRoundInt (a * 100) : ℚ) ≤ (pyRoundInt (b * 100) : ℚ) := by
    exact_mod_cast pyRoundInt_mono (by linarith : a * 100 ≤ b * 100)
  linarith

theorem round2_gap {a b : ℚ} (h : a + 1 / 100 < b) : round2 a + 1 / 100 ≤ round2 b := by
  rw [round2, round2]
  have h1 : (pyRoundInt (a * 100) : ℚ) + 1 ≤ (pyRoundInt (b * 100) : ℚ) := by
    exact_mod_cast pyRoundInt_gap (by linarith : a * 100 + 1 < b * 100)
  linarith

-- ## Timeline Remapper (`rebuild_json_with_shots`, lines 192-220)

/-- A remapped segment: original provenance times (rounded to 3 decimals) and
new timeline times (rounded to 2 decimals). -/
structure RSeg where
  origStart : ℚ
  origEnd : ℚ
  start : ℚ
  stop : ℚ
  deriving DecidableEq, Repr

/-- The first remapping loop: segments of original length `≤ 0.01` are dropped,
the rest get `start = round(t, 2)`, `end = round(t + length, 2)`, with the
running offset `t` advanced by the unrounded length. -/
def remapFlatAux (t : ℚ) : List (ℚ × ℚ) → List RSeg × ℚ
  | [] => ([], t)
  | (s, e) :: rest =>
    if max (e - s) 0 ≤ 1 / 100 then remapFlatAux t rest
    else
      ((⟨round3 s, round3 e, round2 t, round2 (t + max (e - s) 0)⟩ : RSeg) ::
          (remapFlatAux (t + max (e - s) 0) rest).1,
        (remapFlatAux (t + max (e - s) 0) rest).2)

/-- Remap a flattened list of original `(start, end)` segment times; returns
the new segment list and `logical_duration`. -/
def remapFlat (flat : List (ℚ × ℚ)) : List RSeg × ℚ := remapFlatAux 0 flat

/-- The rescale loop: each segment's rounded length is multiplied by `ratio`,
and the new times are the rounded running offsets. -/
def rescaleAux (ratio t : ℚ) : List RSeg → List RSeg × ℚ
  | [] => ([], t)
  | sg :: rest =>
    ({ sg with start := round2 t,
               stop := round2 (t + (sg.stop - sg.start) * ratio) } ::
        (rescaleAux ratio (t + (sg.stop - sg.start) * ratio) rest).1,
      (rescaleAux ratio (t + (sg.stop - sg.start) * ratio) rest).2)

def rescaleSegs (segs : List RSeg) (ratio : ℚ) : List RSeg × ℚ := rescaleAux ratio 0 segs

/-- The Timeline Remapper: remap, then rescale only when `hardcut_duration > 0`
and `logical_duration > hardcut_duration + 1e-3`. -/
def remapSegments (flat : List (ℚ × ℚ)) (hardcutDuration : ℚ) : List RSeg × ℚ :=
  if 0 < hardcutDuration ∧ hardcutDuration + 1 / 1000 < (remapFlat flat).2 then
    rescaleSegs (remapFlat flat).1 (hardcutDuration / (remapFlat flat).2)
  else remapFlat flat

/-- Total rounded length of a list of remapped segments. -/
def sumRLen (l : List RSeg) : ℚ := (l.map (fun sg => sg.stop - sg.start)).sum

-- ## Lemmas about the remapping loop

theorem remapFlatAux_head (flat : List (ℚ × ℚ)) (t : ℚ) :
    ∀ sg ∈ (remapFlatAux t flat).1.head?, sg.start = round2 t := by
  induction flat generalizing t with
  | nil => intro sg hsg; simp [remapFlatAux] at hsg
  | cons p rest ih =>
      obtain ⟨s, e⟩ := p
      intro sg hsg
      rw [remapFlatAux] at hsg
      by_cases h : max (e - s) 0 ≤ 1 / 100
      · rw [if_pos h] at hsg
        exact ih t sg hsg
      · rw [if_neg h] at hsg
        simp only [List.head?_cons, Option.mem_def, Option.some.injEq] at hsg
        rw [← hsg]

theorem remapFlatAux_chain (flat : List (ℚ × ℚ)) (t : ℚ) :
    List.Chain' (fun a b : RSeg => a.stop = b.start) (remapFlatAux t flat).1 := by
  induction flat generalizing t with
  | nil => simp [remapFlatAux]
  | cons p rest ih =>
      obtain ⟨s, e⟩ := p
      rw [remapFlatAux]
      by_cases h : max (e - s) 0 ≤ 1 / 100
      · rw [if_pos h]; exact ih t
      · rw [if_neg h]
        refine List.chain'_cons'.2 ⟨fun b hb => ?_, ih (t + max (e - s) 0)⟩
        rw [remapFlatAux_head rest (t + max (e - s) 0) b hb]

theorem remapFlatAux_len (flat : List (ℚ × ℚ)) (t : ℚ) :
    ∀ sg ∈ (remapFlatAux t flat).1, 1 / 100 ≤ sg.stop - sg.start := by
  induction flat generalizing t with
  | nil => intro sg hsg; simp [remapFlatAux] at hsg
  | cons p rest ih =>
      obtain ⟨s, e⟩ := p
      intro sg hsg
      rw [remapFlatAux] at hsg
      by_cases h : max (e - s) 0 ≤ 1 / 100
      · rw [if_pos h] at hsg
        exact ih t sg hsg
      · rw [if_neg h] at hsg
        rcases List.mem_cons.1 hsg with h1 | h2
        · subst h1
          have hgap : t + 1 / 100 < t + max (e - s) 0 := by
            have := not_le.1 h; linarith
          have := round2_gap hgap
          simp only []
          linarith
        · exact ih (t + max (e - s) 0) sg h2

theorem remapFlatAux_length (flat : List (ℚ × ℚ)) (t : ℚ) :
    (remapFlatAux t flat).1.length =
      (flat.filter (fun p => 1 / 100 < p.2 - p.1)).length := by
  induction flat generalizing t with
  | nil => rfl
  | cons p rest ih =>
      obtain ⟨s, e⟩ := p
      rw [remapFlatAux, List.filter_cons]
      by_cases h : max (e - s) 0 ≤ 1 / 100
      · have hcond : ¬ (1 / 100 < e - s) := by
          have := max_le_iff.1 h; intro hlt; linarith [this.1]
        rw [if_pos h, if_neg (by simpa using hcond)]
        exact ih t
      · have hcond : 1 / 100 < e - s := by
          rcases max_cases (e - s) 0 with ⟨heq, _⟩ | ⟨heq, _⟩
          · rw [heq] at h; exact not_le.1 h
          · rw [heq] at h; norm_num at h
        rw [if_neg h, if_pos (by simpa using hcond)]
        simp only [List.length_cons, ih (t + max (e - s) 0)]

theorem remapFlatAux_sumRLen (flat : List (ℚ × ℚ)) (t : ℚ) :
    sumRLen (remapFlatAux t flat).1 = round2 (remapFlatAux t flat).2 - round2 t := by
  induction flat generalizing t with
  | nil => simp [remapFlatAux, sumRLen]
  | cons p rest ih =>
      obtain ⟨s, e⟩ := p
      rw [remapFlatAux]
      by_cases h : max (e - s) 0 ≤ 1 / 100
      · rw [if_pos h]; exact ih t
      · rw [if_neg h]
        simp only [sumRLen, List.map_cons, List.sum_cons]
        have := ih (t + max (e - s) 0)
        rw [sumRLen] at this
        rw [this]
        ring

-- ## Lemmas about the rescale loop

theorem rescaleAux_head (segs : List RSeg) (ratio t : ℚ) :
    ∀ sg ∈ (rescaleAux ratio t segs).1.head?, sg.start = round2 t := by
  cases segs with
  | nil => intro sg hsg; simp [rescaleAux] at hsg
  | cons x rest =>
      intro sg hsg
      rw [rescaleAux] at hsg
      simp only [List.head?_cons, Option.mem_def, Option.some.injEq] at hsg
      rw [← hsg]

theorem rescaleAux_chain (segs : List RSeg) (ratio t : ℚ) :
    List.Chain' (fun a b : RSeg => a.stop = b.start) (rescaleAux ratio t segs).1 := by
  induction segs generalizing t with
  | nil => simp [rescaleAux]
  | cons x rest ih =>
      rw [rescaleAux]
      refine List.chain'_cons'.2 ⟨fun b hb => ?_, ih _⟩
      rw [rescaleAux_head rest ratio _ b hb]

theorem rescaleAux_pos (segs : List RSeg) (ratio t : ℚ) (hratio : 0 ≤ ratio)
    (hsegs : ∀ sg ∈ segs, sg.start ≤ sg.stop) :
    ∀ sg ∈ (rescaleAux ratio t segs).1, sg.start ≤ sg.stop := by
  induction segs generalizing t with
  | nil => intro sg hsg; simp [rescaleAux] at hsg
  | cons x rest ih =>
      intro sg hsg
      rw [rescaleAux] at hsg
      rcases List.mem_cons.1 hsg with h1 | h2
      · subst h1
        have hx : x.start ≤ x.stop := hsegs x (List.mem_cons_self _ _)
        have hnl : 0 ≤ (x.stop - x.start) * ratio := mul_nonneg (by linarith) hratio
        exact round2_mono (by linarith)
      · exact ih _ (fun q hq => hsegs q (List.mem_cons_of_mem _ hq)) sg h2

theorem rescaleAux_length (segs : List RSeg) (ratio t : ℚ) :
    (rescaleAux ratio t segs).1.length = segs.length := by
  induction segs generalizing t with
  | nil => rfl
  | cons x rest ih => simp [rescaleAux, ih]

/-- Specification-side form of the rescale step (for claim C6): segment `i`
spans the factor-scaled running offsets
`[round2 (ratio * Σ_{j<i} len_j), round2 (ratio * Σ_{j≤i} len_j)]`. -/
def rescaleSpec (ratio acc : ℚ) : List RSeg → List RSeg
  | [] => []
  | sg :: rest =>
    { sg with start := round2 (ratio * acc),
              stop := round2 (ratio * (acc + (sg.stop - sg.start))) } ::
      rescaleSpec ratio (acc + (sg.stop - sg.start)) rest

theorem rescaleAux_eq_spec (segs : List RSeg) (ratio acc : ℚ) :
    rescaleAux ratio (ratio * acc) segs =
      (rescaleSpec ratio acc segs, ratio * (acc + sumRLen segs)) := by
  induction segs generalizing acc with
  | nil => simp [rescaleAux, rescaleSpec, sumRLen]
  | cons x rest ih =>
      have harg : ratio * acc + (x.stop - x.start) * ratio =
          ratio * (acc + (x.stop - x.start)) := by ring
      rw [rescaleAux, rescaleSpec, harg, ih (acc + (x.stop - x.start))]
      simp only [sumRLen, List.map_cons, List.sum_cons, Prod.mk.injEq]
      exact ⟨trivial, by ring⟩

theorem rescaleSegs_eq_spec (segs : List RSeg) (ratio : ℚ) :
    rescaleSegs segs ratio = (rescaleSpec ratio 0 segs, ratio * sumRLen segs) := by
  have h := rescaleAux_eq_spec segs ratio 0
  rw [mul_zero, zero_add] at h
  exact h

theorem chainAdjStartsMono (l : List RSeg)
    (hadj : List.Chain' (fun a b : RSeg => a.stop = b.start) l)
    (hp : ∀ sg ∈ l, sg.start ≤ sg.stop) :
    List.Chain' (fun a b : RSeg => a.start ≤ b.start) l := by
  induction l with
  | nil => exact List.chain'_nil
  | cons x rest ih =>
      cases rest with
      | nil => exact List.chain'_singleton _
      | cons y rest2 =>
          rw [List.chain'_cons] at hadj ⊢
          have hx : x.start ≤ x.stop := hp x (List.mem_cons_self _ _)
          exact ⟨by rw [← hadj.1]; exact hx,
            ih hadj.2 (fun q hq => hp q (List.mem_cons_of_mem _ hq))⟩

-- ## Claim C5 (Remapper output invariant)

/-- Claim C5 (counterexample): a single segment of original length `0.011 s`
(which is `> 0.01` and therefore kept) is remapped to `[0.0, 0.01]` because
the output times are rounded to 2 decimals, so its output duration is exactly
`0.01 s` — not strictly greater than `0.01 s` as claimed. -/
theorem C5_cex :
    (remapSegments [((0:ℚ), 11 / 1000)] 1).1 = [⟨0, 11 / 1000, 0, 1 / 100⟩] ∧
    ¬ ((1:ℚ) / 100 < (1 / 100 : ℚ) - 0) := by
  constructor
  · norm_num [remapSegments, remapFlat, remapFlatAux, round2, round3,
      pyRoundInt, round_eq, max_def]
  · norm_num

/-- Claim C5 (amended): after the Timeline Remapper (including any rescale)
each output segment's end equals the next segment's start (so in particular
start times are non-decreasing and end never exceeds the next start plus ε),
every output segment has nonnegative duration, and when no rescale is applied
every output duration is at least `0.01 s` (rounding can make it exactly
`0.01`, and rescaling can shrink it below `0.01`); exactly the segments of
original length `> 0.01 s` survive. -/
theorem C5_remap_invariant (flat : List (ℚ × ℚ)) (hardcutDuration : ℚ) :
    List.Chain' (fun a b : RSeg => a.stop = b.start)
      (remapSegments flat hardcutDuration).1 ∧
    List.Chain' (fun a b : RSeg => a.start ≤ b.start)
      (remapSegments flat hardcutDuration).1 ∧
    (∀ sg ∈ (remapSegments flat hardcutDuration).1, sg.start ≤ sg.stop) ∧
    (¬ (0 < hardcutDuration ∧ hardcutDuration + 1 / 1000 < (remapFlat flat).2) →
      ∀ sg ∈ (remapSegments flat hardcutDuration).1, 1 / 100 ≤ sg.stop - sg.start) ∧
    (remapSegments flat hardcutDuration).1.length =
      (flat.filter (fun p => 1 / 100 < p.2 - p.1)).length := by
  by_cases hc : 0 < hardcutDuration ∧ hardcutDuration + 1 / 1000 < (remapFlat flat).2
  · have hout : remapSegments flat hardcutDuration =
        rescaleSegs (remapFlat flat).1 (hardcutDuration / (remapFlat flat).2) := by
      rw [remapSegments, if_pos hc]
    have hld : 0 < (remapFlat flat).2 := by linarith [hc.1, hc.2]
    have hratio : 0 ≤ hardcutDuration / (remapFlat flat).2 :=
      le_of_lt (div_pos hc.1 hld)
    have hsegs : ∀ sg ∈ (remapFlat flat).1, sg.start ≤ sg.stop := by
      intro sg hsg
      have := remapFlatAux_len flat 0 sg hsg
      linarith
    rw [hout]
    refine ⟨rescaleAux_chain _ _ _, ?_, rescaleAux_pos _ _ _ hratio hsegs,
      fun hneg => absurd hc hneg, ?_⟩
    · exact chainAdjStartsMono _ (rescaleAux_chain _ _ _)
        (rescaleAux_pos _ _ _ hratio hsegs)
    · rw [show (rescaleSegs (remapFlat flat).1
          (hardcutDuration / (remapFlat flat).2)).1.length =
          (remapFlat flat).1.length from rescaleAux_length _ _ _]
      exact remapFlatAux_length flat 0
  · have hout : remapSegments flat hardcutDuration = remapFlat flat := by
      rw [remapSegments, if_neg hc]
    rw [hout]
    have hlen := remapFlatAux_len flat 0
    refine ⟨remapFlatAux_chain flat 0, ?_,
      fun sg hsg => by linarith [hlen sg hsg],
      fun _ sg hsg => hlen sg hsg,
      remapFlatAux_length flat 0⟩
    exact chainAdjStartsMono _ (remapFlatAux_chain flat 0)
      (fun sg hsg => by linarith [hlen sg hsg])

/-- Claim C5 (witness): the amended invariant applied to the concrete input
`[(0,2), (2,4)]` with `hardcutDuration = 10` (no rescale triggered). -/
theorem C5_remap_invariant_witness :
    (remapSegments [((0:ℚ), 2), (2, 4)] 10).1 = [⟨0, 2, 0, 2⟩, ⟨2, 4, 2, 4⟩] ∧
    (∀ sg ∈ (remapSegments [((0:ℚ), 2), (2, 4)] 10).1,
      1 / 100 ≤ sg.stop - sg.start) := by
  refine ⟨?_, (C5_remap_invariant [((0:ℚ), 2), (2, 4)] 10).2.2.2.1 ?_⟩
  · norm_num [remapSegments, remapFlat, remapFlatAux, round2, round3,
      pyRoundInt, round_eq, max_def]
  · norm_num [remapFlat, remapFlatAux, round2, round3, pyRoundInt,
      round_eq, max_def]

-- ## Claim C6 (rescale-only-if-longer policy)

/-- Claim C6 (counterexample): the code rescales only when additionally
`hardcut_duration > 0`.  With `hardcutDuration = 0` and a flattened logical
duration of `5 > 0 + ε`, the claim demands a uniform rescale by factor `0/5`,
but the code leaves the segments (and `logical_duration = 5`) untouched. -/
theorem C6_cex :
    (0:ℚ) + 1 / 1000 < (remapFlat [((0:ℚ), 5)]).2 ∧
    remapSegments [((0:ℚ), 5)] 0 = ([⟨0, 5, 0, 5⟩], 5) ∧
    rescaleSegs [(⟨0, 5, 0, 5⟩ : RSeg)] (0 / (remapFlat [((0:ℚ), 5)]).2) ≠
      ([⟨0, 5, 0, 5⟩], 5) := by
  refine ⟨?_, ?_, ?_⟩ <;>
    norm_num [remapSegments, remapFlat, remapFlatAux, rescaleSegs, rescaleAux,
      round2, round3, pyRoundInt, round_eq, max_def, Prod.ext_iff, RSeg.mk.injEq]

/-- Claim C6 (amended): for `hardcutDuration > 0` (which the pipeline
guarantees: it is the sum of the nonempty keep-set lengths), the remapper
rescales exactly when `logicalDuration > hardcutDuration + ε` (ε = 1e-3):
in that case every segment is uniformly rescaled by
`hardcutDuration / logicalDuration` with a recomputed running offset
(segment `i` spans `round2(ratio * Σ_{j<i} len_j)` to
`round2(ratio * Σ_{j≤i} len_j)`), and `logicalDuration` is updated to the
scaled total `ratio * Σ len_j`, where `Σ len_j` telescopes to
`round2(logicalDuration)`; when the flattened span is shorter or equal,
nothing is rescaled. -/
theorem C6_rescale_policy (flat : List (ℚ × ℚ)) (hardcutDuration : ℚ)
    (hpos : 0 < hardcutDuration) :
    ((remapFlat flat).2 ≤ hardcutDuration + 1 / 1000 →
      remapSegments flat hardcutDuration = remapFlat flat) ∧
    (hardcutDuration + 1 / 1000 < (remapFlat flat).2 →
      remapSegments flat hardcutDuration =
        (rescaleSpec (hardcutDuration / (remapFlat flat).2) 0 (remapFlat flat).1,
          hardcutDuration / (remapFlat flat).2 * sumRLen (remapFlat flat).1) ∧
      sumRLen (remapFlat flat).1 = round2 (remapFlat flat).2) := by
  constructor
  · intro hle
    rw [remapSegments, if_neg]
    rintro ⟨_, h2⟩
    linarith
  · intro hlt
    constructor
    · rw [remapSegments, if_pos ⟨hpos, hlt⟩]
      exact rescaleSegs_eq_spec _ _
    · have hr0 : round2 0 = 0 := by norm_num [round2, pyRoundInt, round_eq]
      have hts := remapFlatAux_sumRLen flat 0
      rw [hr0, sub_zero] at hts
      exact hts

/-- Claim C6 (witness): concrete scenario 3 — three flattened segments of 40 s
each (total 120 s) against `hardcutDuration = 100`: the rescale triggers with
factor `100/120` and the final logical duration is exactly `100`. -/
theorem C6_rescale_policy_witness :
    (100:ℚ) + 1 / 1000 < (remapFlat [((0:ℚ), 40), (40, 80), (80, 120)]).2 ∧
    remapSegments [((0:ℚ), 40), (40, 80), (80, 120)] 100 =
      (rescaleSpec (100 / (remapFlat [((0:ℚ), 40), (40, 80), (80, 120)]).2) 0
          (remapFlat [((0:ℚ), 40), (40, 80), (80, 120)]).1,
        100 / (remapFlat [((0:ℚ), 40), (40, 80), (80, 120)]).2 *
          sumRLen (remapFlat [((0:ℚ), 40), (40, 80), (80, 120)]).1) ∧
    (remapSegments [((0:ℚ), 40), (40, 80), (80, 120)] 100).2 = 100 ∧
    (remapSegments [((0:ℚ), 40), (40, 80), (80, 120)] 100).1 =
      [⟨0, 40, 0, 3333 / 100⟩, ⟨40, 80, 3333 / 100, 6667 / 100⟩,
        ⟨80, 120, 6667 / 100, 100⟩] := by
  have hcond : (100:ℚ) + 1 / 1000 <
      (remapFlat [((0:ℚ), 40), (40, 80), (80, 120)]).2 := by
    norm_num [remapFlat, remapFlatAux, round2, round3, pyRoundInt,
      round_eq, max_def]
  refine ⟨hcond,
    ((C6_rescale_policy [((0:ℚ), 40), (40, 80), (80, 120)] 100 (by norm_num)).2
      hcond).1, ?_, ?_⟩ <;>
    norm_num [remapSegments, remapFlat, remapFlatAux, rescaleSegs, rescaleAux,
      round2, round3, pyRoundInt, round_eq, max_def]

-- ## Shot Reconstructor (`rebuild_json_with_shots`, lines 222-276)

/-- An original shot as collected by `_collect_shots`: start, end, probability. -/
structure OrigShot where
  start : ℚ
  stop : ℚ
  prob : ℚ
  deriving DecidableEq, Repr

/-- A reconstructed shot entry (segments are modelled separately, claim C7). -/
structure NewShot where
  start : ℚ
  stop : ℚ
  startFrame : ℤ
  endFrame : ℤ
  prob : ℚ
  deriving DecidableEq, Repr

/-- The kept-length loop: each keep interval contributes its overlap with the
shot, but only when the overlap exceeds `EPS`. -/
def keptLen (s0 e0 : ℚ) : List (ℚ × ℚ) → ℚ
  | [] => 0
  | k :: rest =>
    (if EPS < min e0 k.2 - max s0 k.1 then min e0 k.2 - max s0 k.1 else 0) +
      keptLen s0 e0 rest

/-- Specification-side kept length (claim C4):
`Σ_k max(0, min(shot.end, k.end) - max(shot.start, k.start))`. -/
def specKeptLen (s0 e0 : ℚ) : List (ℚ × ℚ) → ℚ
  | [] => 0
  | k :: rest => max 0 (min e0 k.2 - max s0 k.1) + specKeptLen s0 e0 rest

/-- The reconstruction walk: shots with kept length `≤ EPS` are skipped, the
rest get the contiguous interval `[cur, cur + keptLen]` (rounded to 3 decimals
on output), frame indices `round(time * fps)`, and the probability unchanged. -/
def buildNewShotsAux (keeps : List (ℚ × ℚ)) (fps cur : ℚ) :
    List OrigShot → List NewShot
  | [] => []
  | sh :: rest =>
    if keptLen sh.start sh.stop keeps ≤ EPS then buildNewShotsAux keeps fps cur rest
    else
      (⟨round3 cur, round3 (cur + keptLen sh.start sh.stop keeps),
          pyRoundInt (cur * fps),
          pyRoundInt ((cur + keptLen sh.start sh.stop keeps) * fps),
          sh.prob⟩ : NewShot) ::
        buildNewShotsAux keeps fps (cur + keptLen sh.start sh.stop keeps) rest

/-- The fallback shot `[0, logical_duration]` synthesized when every original
shot is fully cut. -/
def fallbackShot (logicalDuration fps : ℚ) : NewShot :=
  ⟨0, round3 logicalDuration, 0, pyRoundInt (logicalDuration * fps), 1⟩

/-- The shot-reconstruction step of `rebuild_json_with_shots`: walk the
original shots (already sorted by `_collect_shots`), then fall back to a
single whole-span shot when nothing survives. -/
def rebuildShots (shots : List OrigShot) (keeps : List (ℚ × ℚ))
    (fps logicalDuration : ℚ) : List NewShot :=
  if buildNewShotsAux keeps fps 0 shots = []
  then [fallbackShot logicalDuration fps]
  else buildNewShotsAux keeps fps 0 shots

/-- Specification-side walk over the surviving shots only (claim C4):
survivor `i` spans `[round3 acc_i, round3 (acc_i + kept_i)]` with
`acc_i = Σ_{j<i} kept_j`. -/
def newShotsSpec (keeps : List (ℚ × ℚ)) (fps acc : ℚ) :
    List OrigShot → List NewShot
  | [] => []
  | sh :: rest =>
    (⟨round3 acc, round3 (acc + keptLen sh.start sh.stop keeps),
        pyRoundInt (acc * fps),
        pyRoundInt ((acc + keptLen sh.start sh.stop keeps) * fps),
        sh.prob⟩ : NewShot) ::
      newShotsSpec keeps fps (acc + keptLen sh.start sh.stop keeps) rest

theorem keptLen_eq_spec (s0 e0 : ℚ) (keeps : List (ℚ × ℚ))
    (h : ∀ k ∈ keeps, min e0 k.2 - max s0 k.1 ≤ 0 ∨ EPS < min e0 k.2 - max s0 k.1) :
    keptLen s0 e0 keeps = specKeptLen s0 e0 keeps := by
  induction keeps with
  | nil => rfl
  | cons k rest ih =>
      have hk := h k (List.mem_cons_self _ _)
      have hrest := ih (fun q hq => h q (List.mem_cons_of_mem _ hq))
      rw [keptLen, specKeptLen, hrest]
      rcases hk with hk | hk
      · rw [if_neg (not_lt.2 (le_trans hk (le_of_lt EPS_pos))), max_eq_left hk]
      · rw [if_pos hk, max_eq_right (le_of_lt (lt_trans EPS_pos hk))]

theorem buildNewShotsAux_eq_spec (shots : List OrigShot) (keeps : List (ℚ × ℚ))
    (fps cur : ℚ) :
    buildNewShotsAux keeps fps cur shots =
      newShotsSpec keeps fps cur
        (shots.filter (fun sh => EPS < keptLen sh.start sh.stop keeps)) := by
  induction shots generalizing cur with
  | nil => rfl
  | cons sh rest ih =>
      rw [buildNewShotsAux, List.filter_cons]
      by_cases h : keptLen sh.start sh.stop keeps ≤ EPS
      · rw [if_pos h, if_neg (by simpa using not_lt.2 h)]
        exact ih cur
      · rw [if_neg h, if_pos (by simpa using not_le.1 h), newShotsSpec]
        rw [ih (cur + keptLen sh.start sh.stop keeps)]

theorem newShotsSpec_length (shots : List OrigShot) (keeps : List (ℚ × ℚ))
    (fps acc : ℚ) : (newShotsSpec keeps fps acc shots).length = shots.length := by
  induction shots generalizing acc with
  | nil => rfl
  | cons sh rest ih => simp [newShotsSpec, ih]

theorem newShotsSpec_head (shots : List OrigShot) (keeps : List (ℚ × ℚ))
    (fps acc : ℚ) :
    ∀ sh ∈ (newShotsSpec keeps fps acc shots).head?, sh.start = round3 acc := by
  cases shots with
  | nil => intro sh hsh; simp [newShotsSpec] at hsh
  | cons x rest =>
      intro sh hsh
      rw [newShotsSpec] at hsh
      simp only [List.head?_cons, Option.mem_def, Option.some.injEq] at hsh
      rw [← hsh]

theorem newShotsSpec_chain (shots : List OrigShot) (keeps : List (ℚ × ℚ))
    (fps acc : ℚ) :
    List.Chain' (fun a b : NewShot => a.stop = b.start)
      (newShotsSpec keeps fps acc shots) := by
  induction shots generalizing acc with
  | nil => simp [newShotsSpec]
  | cons x rest ih =>
      rw [newShotsSpec]
      refine List.chain'_cons'.2 ⟨fun b hb => ?_, ih _⟩
      rw [newShotsSpec_head rest keeps fps _ b hb]

-- ## Claim C4 (Shot Reconstructor postcondition)

/-- Claim C4 (counterexample): the code counts an overlap only when it exceeds
`EPS`.  The shot `(1, 2)` with keep-set `[(0, 1 + 6e-7), (2 - 6e-7, 3)]` has
two overlaps of `6e-7` each: the spec formula `Σ max(0, ...)` gives
`1.2e-6 > EPS` (the shot should survive with that kept length), but the code
computes kept length `0`, drops the shot, and emits the fallback shot instead. -/
theorem C4_cex :
    keptLen 1 2 [((0:ℚ), 1 + 6 / 10000000), (2 - 6 / 10000000, 3)] = 0 ∧
    specKeptLen 1 2 [((0:ℚ), 1 + 6 / 10000000), (2 - 6 / 10000000, 3)] = 3 / 2500000 ∧
    EPS < 3 / 2500000 ∧
    rebuildShots [⟨1, 2, 1⟩] [((0:ℚ), 1 + 6 / 10000000), (2 - 6 / 10000000, 3)] 30 5 =
      [⟨0, 5, 0, 150, 1⟩] := by
  refine ⟨?_, ?_, by norm_num [EPS], ?_⟩ <;>
    norm_num [keptLen, specKeptLen, rebuildShots, buildNewShotsAux, fallbackShot,
      round3, pyRoundInt, round_eq, EPS, min_def, max_def, List.cons_ne_nil]

/-- Claim C4 (amended): each shot's kept length counts only the overlaps that
strictly exceed `EPS` (it agrees with the claimed formula
`Σ_k max(0, overlap)` whenever no overlap lies in `(0, EPS]`); walking shots in
order, those with kept length `≤ EPS` are skipped and the survivors are
assigned consecutive intervals `[cursor, cursor + keptLength]` — rounded to 3
decimals on output — with frame indices `round(time × fps)` and probability
carried over; if no shot survives, the single fallback shot
`[0, logicalDuration]` is produced. -/
theorem C4_shot_reconstruction (shots : List OrigShot) (keeps : List (ℚ × ℚ))
    (fps logicalDuration : ℚ) :
    (∀ s0 e0 : ℚ,
      (∀ k ∈ keeps, min e0 k.2 - max s0 k.1 ≤ 0 ∨ EPS < min e0 k.2 - max s0 k.1) →
      keptLen s0 e0 keeps = specKeptLen s0 e0 keeps) ∧
    rebuildShots shots keeps fps logicalDuration =
      (if shots.filter (fun sh => EPS < keptLen sh.start sh.stop keeps) = []
       then [fallbackShot logicalDuration fps]
       else newShotsSpec keeps fps 0
         (shots.filter (fun sh => EPS < keptLen sh.start sh.stop keeps))) ∧
    List.Chain' (fun a b : NewShot => a.stop = b.start)
      (buildNewShotsAux keeps fps 0 shots) := by
  refine ⟨fun s0 e0 h => keptLen_eq_spec s0 e0 keeps h, ?_, ?_⟩
  · rw [rebuildShots, buildNewShotsAux_eq_spec]
    by_cases h : shots.filter (fun sh => EPS < keptLen sh.start sh.stop keeps) = []
    · rw [if_pos h, if_pos (by rw [h]; rfl)]
    · rw [if_neg h, if_neg]
      intro hlen
      exact h (List.eq_nil_of_length_eq_zero
        (by rw [← newShotsSpec_length _ keeps fps 0, hlen]; rfl))
  · rw [buildNewShotsAux_eq_spec]
    exact newShotsSpec_chain _ keeps fps 0

/-- Claim C4 (witness): concrete scenario 2 — shots
`[(0,10), (10,20), (20,100)]` (probabilities 0.9, 0.8, 0.7) with keep-set
`[(0,5), (15,100)]` give kept lengths `5, 5, 80` and new shots
`[(0,5), (5,10), (10,90)]` at 30 fps, probabilities carried over. -/
theorem C4_shot_reconstruction_witness :
    keptLen 0 10 [((0:ℚ), 5), (15, 100)] = 5 ∧
    keptLen 10 20 [((0:ℚ), 5), (15, 100)] = 5 ∧
    keptLen 20 100 [((0:ℚ), 5), (15, 100)] = 80 ∧
    keptLen 0 10 [((0:ℚ), 5), (15, 100)] = specKeptLen 0 10 [((0:ℚ), 5), (15, 100)] ∧
    rebuildShots [⟨0, 10, 9/10⟩, ⟨10, 20, 4/5⟩, ⟨20, 100, 7/10⟩]
        [((0:ℚ), 5), (15, 100)] 30 90 =
      [⟨0, 5, 0, 150, 9/10⟩, ⟨5, 10, 150, 300, 4/5⟩, ⟨10, 90, 300, 2700, 7/10⟩] := by
  refine ⟨?_, ?_, ?_,
    (C4_shot_reconstruction [] [((0:ℚ), 5), (15, 100)] 30 90).1 0 10
      (by norm_num [EPS, min_def, max_def]), ?_⟩ <;>
    norm_num [keptLen, specKeptLen, rebuildShots, buildNewShotsAux, newShotsSpec,
      fallbackShot, round3, pyRoundInt, round_eq, EPS, min_def, max_def,
      List.cons_ne_nil]

-- ## Segment-to-shot attachment (`rebuild_json_with_shots`, lines 278-291)

/-- The attachment loop: index of the first shot whose `[start, end]` contains
`mid` with `1e-6` tolerance (`if st - 1e-6 <= mid <= ed + 1e-6`). -/
def firstMatch (mid : ℚ) : List (ℚ × ℚ) → Option ℕ
  | [] => none
  | sh :: rest =>
    if sh.1 - EPS ≤ mid ∧ mid ≤ sh.2 + EPS then some 0
    else (firstMatch mid rest).map (fun i => i + 1)

/-- Index of the shot a segment midpoint is attached to: the first match, or
the last shot (`new_shots_list[-1]`) when no shot matches. -/
def midAttachIdx (shots : List (ℚ × ℚ)) (mid : ℚ) : ℕ :=
  match firstMatch mid shots with
  | some i => i
  | none => shots.length - 1

/-- Attachment of all remapped segments to the new shots, in order: shot `j`
receives exactly the segments (in input order) whose midpoint index is `j`. -/
def attachSegments (shots : List (ℚ × ℚ)) (segs : List (ℚ × ℚ)) :
    List (List (ℚ × ℚ)) :=
  (List.range shots.length).map
    (fun j => segs.filter (fun sg => midAttachIdx shots (1 / 2 * (sg.1 + sg.2)) = j))

theorem firstMatch_some (mid : ℚ) (l : List (ℚ × ℚ)) (i : ℕ)
    (h : firstMatch mid l = some i) :
    ∃ pre sh post, l = pre ++ sh :: post ∧ pre.length = i ∧
      (sh.1 - EPS ≤ mid ∧ mid ≤ sh.2 + EPS) ∧
      ∀ x ∈ pre, ¬ (x.1 - EPS ≤ mid ∧ mid ≤ x.2 + EPS) := by
  induction l generalizing i with
  | nil => simp [firstMatch] at h
  | cons sh rest ih =>
      by_cases hc : sh.1 - EPS ≤ mid ∧ mid ≤ sh.2 + EPS
      · rw [firstMatch, if_pos hc] at h
        obtain rfl : (0 : ℕ) = i := by simpa using h
        exact ⟨[], sh, rest, rfl, rfl, hc, by simp⟩
      · rw [firstMatch, if_neg hc] at h
        cases hf : firstMatch mid rest with
        | none => rw [hf] at h; simp at h
        | some i2 =>
            rw [hf, Option.map_some'] at h
            obtain rfl : i2 + 1 = i := by simpa using h
            obtain ⟨pre, sh2, post, heq, hlen, hcond, hpre⟩ := ih i2 hf
            refine ⟨sh :: pre, sh2, post, by rw [heq]; rfl, by simp [hlen], hcond, ?_⟩
            intro x hx
            rcases List.mem_cons.1 hx with rfl | hx2
            · exact hc
            · exact hpre x hx2

theorem firstMatch_none (mid : ℚ) (l : List (ℚ × ℚ))
    (h : firstMatch mid l = none) :
    ∀ x ∈ l, ¬ (x.1 - EPS ≤ mid ∧ mid ≤ x.2 + EPS) := by
  induction l with
  | nil => intro x hx; exact absurd hx (List.not_mem_nil _)
  | cons sh rest ih =>
      by_cases hc : sh.1 - EPS ≤ mid ∧ mid ≤ sh.2 + EPS
      · rw [firstMatch, if_pos hc] at h; exact absurd h (by simp)
      · rw [firstMatch, if_neg hc] at h
        have hrest : firstMatch mid rest = none := Option.map_eq_none'.1 h
        intro x hx
        rcases List.mem_cons.1 hx with rfl | hx2
        · exact hc
        · exact ih hrest x hx2

theorem midAttachIdx_lt (shots : List (ℚ × ℚ)) (mid : ℚ) (hne : shots ≠ []) :
    midAttachIdx shots mid < shots.length := by
  cases hf : firstMatch mid shots with
  | none =>
      rw [midAttachIdx, hf]
      exact Nat.sub_lt (List.length_pos.2 hne) Nat.one_pos
  | some i =>
      rw [midAttachIdx, hf]
      show i < shots.length
      obtain ⟨pre, sh, post, heq, hlen, _, _⟩ := firstMatch_some mid shots i hf
      rw [heq, List.length_append, List.length_cons]
      omega

theorem sumMapAdd (l : List ℕ) (a b : ℕ → ℕ) :
    (l.map (fun j => a j + b j)).sum = (l.map a).sum + (l.map b).sum := by
  induction l with
  | nil => rfl
  | cons x rest ih =>
      simp only [List.map_cons, List.sum_cons, ih]
      omega

theorem rangeCountOne (n k : ℕ) :
    ((List.range n).map (fun j => if k = j then 1 else 0)).sum =
      if k < n then 1 else 0 := by
  induction n with
  | zero => simp
  | succ n ih =>
      rw [List.range_succ, List.map_append, List.sum_append, ih]
      simp only [List.map_cons, List.map_nil, List.sum_cons, List.sum_nil]
      by_cases h2 : k = n
      · subst h2
        rw [if_neg (Nat.lt_irrefl k), if_pos rfl, if_pos (Nat.lt_succ_self k)]
        omega
      · by_cases h1 : k < n
        · rw [if_pos h1, if_neg h2, if_pos (Nat.lt_succ_of_lt h1)]
          omega
        · rw [if_neg h1, if_neg h2, if_neg (by omega)]
          omega

theorem filterIdxCount (n : ℕ) (f : ℚ × ℚ → ℕ) (segs : List (ℚ × ℚ))
    (hf : ∀ sg ∈ segs, f sg < n) :
    ((List.range n).map
      (fun j => (segs.filter (fun sg => f sg = j)).length)).sum = segs.length := by
  induction segs with
  | nil => simp
  | cons x rest ih =>
      have hx : f x < n := hf x (List.mem_cons_self _ _)
      have hrest := ih (fun sg hsg => hf sg (List.mem_cons_of_mem _ hsg))
      have hmap : (List.range n).map
          (fun j => ((x :: rest).filter (fun sg => f sg = j)).length) =
          (List.range n).map
          (fun j => (if f x = j then 1 else 0) +
            (rest.filter (fun sg => f sg = j)).length) := by
        refine List.map_congr_left (fun j _ => ?_)
        rw [List.filter_cons]
        by_cases h : f x = j
        · rw [if_pos (by simpa using h), if_pos h, List.length_cons]
          omega
        · rw [if_neg (by simpa using h), if_neg h]
          omega
      rw [hmap, sumMapAdd, rangeCountOne, hrest, if_pos hx, List.length_cons]
      omega

-- ## Claim C7 (segment-to-shot attachment)

/-- Claim C7: for a nonempty new shot list, every midpoint is attached to the
first shot containing it with `EPS` tolerance when one exists, otherwise to
the last shot; hence the attachment index is always in range and the segments
are distributed without loss or duplication (the per-shot lists' lengths sum
to the number of segments). -/
theorem C7_midpoint_attachment (shots : List (ℚ × ℚ)) (segs : List (ℚ × ℚ))
    (hne : shots ≠ []) :
    (∀ mid : ℚ,
      (∃ pre sh post, shots = pre ++ sh :: post ∧
        pre.length = midAttachIdx shots mid ∧
        (sh.1 - EPS ≤ mid ∧ mid ≤ sh.2 + EPS) ∧
        ∀ x ∈ pre, ¬ (x.1 - EPS ≤ mid ∧ mid ≤ x.2 + EPS)) ∨
      (midAttachIdx shots mid = shots.length - 1 ∧
        ∀ x ∈ shots, ¬ (x.1 - EPS ≤ mid ∧ mid ≤ x.2 + EPS))) ∧
    (∀ mid : ℚ, midAttachIdx shots mid < shots.length) ∧
    ((attachSegments shots segs).map List.length).sum = segs.length := by
  refine ⟨fun mid => ?_, fun mid => midAttachIdx_lt shots mid hne, ?_⟩
  · cases hf : firstMatch mid shots with
    | some i =>
        left
        obtain ⟨pre, sh, post, heq, hlen, hcond, hpre⟩ :=
          firstMatch_some mid shots i hf
        exact ⟨pre, sh, post, heq, by rw [midAttachIdx, hf]; exact hlen,
          hcond, hpre⟩
    | none =>
        right
        exact ⟨by rw [midAttachIdx, hf], firstMatch_none mid shots hf⟩
  · rw [attachSegments, List.map_map]
    exact filterIdxCount shots.length
      (fun sg => midAttachIdx shots (1 / 2 * (sg.1 + sg.2))) segs
      (fun sg _ => midAttachIdx_lt shots _ hne)

/-- Claim C7 (witness): shots `[(0,5), (5,10)]`, segments
`[(1,2), (4,6), (20,30)]`: midpoints `1.5`, `5`, `25`; the first two go to the
first shot (`5` matches shot 1 first, inclusively), the off-scale `25` falls
back to the last shot; the counts sum to 3. -/
theorem C7_midpoint_attachment_witness :
    attachSegments [((0:ℚ), 5), (5, 10)] [(1, 2), (4, 6), (20, 30)] =
      [[(1, 2), (4, 6)], [(20, 30)]] ∧
    ((attachSegments [((0:ℚ), 5), (5, 10)] [(1, 2), (4, 6), (20, 30)]).map
      List.length).sum = 3 := by
  constructor
  · norm_num [attachSegments, midAttachIdx, firstMatch, EPS, List.range_succ,
      List.filter_cons, Option.map_some']
  · have h := (C7_midpoint_attachment [((0:ℚ), 5), (5, 10)]
      [(1, 2), (4, 6), (20, 30)] (by simp)).2.2
    simpa using h

-- ## Window Partitioner, greedy variant (`_build_bgm_groups`, bgm_create.py)

/-- The greedy sweep: extend the running window to the shot start when there is
a gap (`if s > cur_end: cur_end = s`); close it only when its length has
reached `min_window`, otherwise keep absorbing (`cur_end = e`). -/
def buildBgmAux (minWindow curS curE : ℚ) : List (ℚ × ℚ) → List (ℚ × ℚ)
  | [] => [(curS, curE)]
  | sh :: rest =>
    if (if curE < sh.1 then sh.1 else curE) - curS < minWindow
    then buildBgmAux minWindow curS sh.2 rest
    else (curS, if curE < sh.1 then sh.1 else curE) ::
      buildBgmAux minWindow sh.1 sh.2 rest

/-- The final fix-up of `_build_bgm_groups`: when at least two groups exist
and the last one is shorter than `min_window`, merge it into the previous
group (`groups[-2] = (prev_s, last_e); groups.pop()`). -/
def mergeTail (minWindow : ℚ) : List (ℚ × ℚ) → List (ℚ × ℚ)
  | [] => []
  | [g] => [g]
  | [g1, g2] => if g2.2 - g2.1 < minWindow then [(g1.1, g2.2)] else [g1, g2]
  | g1 :: g2 :: r :: rs => g1 :: mergeTail minWindow (g2 :: r :: rs)

/-- `_build_bgm_groups` from `bgm_create.py`. -/
def buildBgmGroups (shots : List (ℚ × ℚ)) (minWindow : ℚ) : List (ℚ × ℚ) :=
  match shots with
  | [] => []
  | sh :: rest => mergeTail minWindow (buildBgmAux minWindow sh.1 sh.2 rest)

/-- End of the last processed shot (the running `cur_end` after the loop when
every shot is absorbed). -/
def lastStop (cE : ℚ) (l : List (ℚ × ℚ)) : ℚ := l.foldl (fun _ p => p.2) cE

theorem buildBgmAux_good (l : List (ℚ × ℚ)) (minWindow cS cE : ℚ)
    (hcs : cS ≤ cE)
    (hwf : ∀ p ∈ l, p.1 ≤ p.2)
    (hfirst : ∀ b ∈ l.head?, b.1 = cE)
    (hchain : List.Chain' (fun a b : ℚ × ℚ => a.2 = b.1) l) :
    List.Chain' (fun a b : ℚ × ℚ => a.2 = b.1) (buildBgmAux minWindow cS cE l) ∧
    (buildBgmAux minWindow cS cE l).head?.map (fun p => p.1) = some cS ∧
    (buildBgmAux minWindow cS cE l).getLast?.map (fun p => p.2) =
      some (lastStop cE l) ∧
    (∀ p ∈ (buildBgmAux minWindow cS cE l).dropLast, minWindow ≤ p.2 - p.1) ∧
    (∀ p ∈ buildBgmAux minWindow cS cE l, p.1 ≤ p.2) := by
  induction l generalizing cS cE with
  | nil =>
      refine ⟨List.chain'_singleton _, rfl, rfl, ?_, ?_⟩
      · intro p hp
        simp [buildBgmAux] at hp
      · intro p hp
        rw [buildBgmAux, List.mem_singleton] at hp
        subst hp
        exact hcs
  | cons sh rest ih =>
      have hsh1 : sh.1 = cE := hfirst sh (by simp)
      have hsh : sh.1 ≤ sh.2 := hwf sh (List.mem_cons_self _ _)
      have hcc : (if cE < sh.1 then sh.1 else cE) = cE := by
        rw [hsh1]
        exact if_neg (lt_irrefl cE)
      have hfirst2 : ∀ b ∈ rest.head?, b.1 = sh.2 := by
        intro b hb
        exact ((List.chain'_cons'.1 hchain).1 b hb).symm
      have hwf2 : ∀ p ∈ rest, p.1 ≤ p.2 :=
        fun p hp => hwf p (List.mem_cons_of_mem _ hp)
      have hchain2 := (List.chain'_cons'.1 hchain).2
      have hls : lastStop cE (sh :: rest) = lastStop sh.2 rest := rfl
      rw [buildBgmAux, hcc]
      by_cases h : cE - cS < minWindow
      · rw [if_pos h, hls]
        exact ih cS sh.2 (le_trans hcs (hsh1 ▸ hsh)) hwf2 hfirst2 hchain2
      · rw [if_neg h, hls]
        obtain ⟨ichain, ihead, ilast, idrop, iwf⟩ :=
          ih sh.1 sh.2 hsh hwf2 hfirst2 hchain2
        have hne : buildBgmAux minWindow sh.1 sh.2 rest ≠ [] := by
          intro hnil
          rw [hnil] at ihead
          exact absurd ihead (by simp)
        obtain ⟨g0, gtl, hg⟩ := List.exists_cons_of_ne_nil hne
        refine ⟨?_, by simp, ?_, ?_, ?_⟩
        · refine List.chain'_cons'.2 ⟨fun b hb => ?_, ichain⟩
          have hb1 : b.1 = sh.1 := by
            rw [hg] at hb ihead
            simp only [List.head?_cons, Option.mem_def, Option.some.injEq] at hb
            simp only [List.head?_cons, Option.map_some', Option.some.injEq] at ihead
            rw [hb] at ihead
            exact ihead
          rw [hb1, hsh1]
        · rw [hg, List.getLast?_cons_cons, ← hg]
          exact ilast
        · rw [hg, List.dropLast_cons₂, ← hg]
          intro p hp
          rcases List.mem_cons.1 hp with rfl | hp2
          · linarith [not_lt.1 h]
          · exact idrop p hp2
        · intro p hp
          rcases List.mem_cons.1 hp with rfl | hp2
          · exact hcs
          · exact iwf p hp2

theorem mergeTail_ne_nil (minWindow : ℚ) (g : List (ℚ × ℚ)) (h : g ≠ []) :
    mergeTail minWindow g ≠ [] := by
  match g with
  | [] => exact absurd rfl h
  | [g1] => simp [mergeTail]
  | [g1, g2] =>
      rw [mergeTail]
      by_cases hc : g2.2 - g2.1 < minWindow
      · rw [if_pos hc]; simp
      · rw [if_neg hc]; simp
  | g1 :: g2 :: r :: rs => simp [mergeTail]

theorem mergeTail_good (minWindow : ℚ) (g : List (ℚ × ℚ))
    (hA : List.Chain' (fun a b : ℚ × ℚ => a.2 = b.1) g)
    (hD : ∀ p ∈ g.dropLast, minWindow ≤ p.2 - p.1)
    (hE : ∀ p ∈ g, p.1 ≤ p.2) :
    List.Chain' (fun a b : ℚ × ℚ => a.2 = b.1) (mergeTail minWindow g) ∧
    (mergeTail minWindow g).head?.map (fun p => p.1) =
      g.head?.map (fun p => p.1) ∧
    (mergeTail minWindow g).getLast?.map (fun p => p.2) =
      g.getLast?.map (fun p => p.2) ∧
    (∀ p ∈ (mergeTail minWindow g).dropLast, minWindow ≤ p.2 - p.1) ∧
    (∀ p ∈ mergeTail minWindow g, p.1 ≤ p.2) := by
  induction g with
  | nil => exact ⟨List.chain'_nil, rfl, rfl, by simp [mergeTail], by simp [mergeTail]⟩
  | cons g1 tl ih =>
      match tl with
      | [] =>
          exact ⟨List.chain'_singleton _, rfl, rfl, by simp [mergeTail],
            fun p hp => hE p (by simpa [mergeTail] using hp)⟩
      | [g2] =>
          rw [mergeTail]
          by_cases hc : g2.2 - g2.1 < minWindow
          · rw [if_pos hc]
            have h12 : g1.2 = g2.1 := (List.chain'_cons.1 hA).1
            refine ⟨List.chain'_singleton _, by simp, by simp [List.getLast?], ?_, ?_⟩
            · intro p hp; simp at hp
            · intro p hp
              rw [List.mem_singleton] at hp
              subst hp
              have h1 : g1.1 ≤ g1.2 := hE g1 (List.mem_cons_self _ _)
              have h2 : g2.1 ≤ g2.2 := hE g2 (by simp)
              simp only []
              linarith [h12]
          · rw [if_neg hc]
            exact ⟨hA, rfl, by simp [List.getLast?], by simpa [List.dropLast] using hD, hE⟩
      | g2 :: r :: rs =>
          rw [mergeTail]
          have hA2 := (List.chain'_cons.1 hA).2
          have hD2 : ∀ p ∈ (g2 :: r :: rs).dropLast, minWindow ≤ p.2 - p.1 := by
            intro p hp
            refine hD p ?_
            rw [List.dropLast_cons₂]
            exact List.mem_cons_of_mem _ hp
          have hE2 : ∀ p ∈ g2 :: r :: rs, p.1 ≤ p.2 :=
            fun p hp => hE p (List.mem_cons_of_mem _ hp)
          obtain ⟨ichain, ihead, ilast, idrop, iwf⟩ := ih hA2 hD2 hE2
          have hne : mergeTail minWindow (g2 :: r :: rs) ≠ [] :=
            mergeTail_ne_nil minWindow _ (by simp)
          obtain ⟨m0, mtl, hm⟩ := List.exists_cons_of_ne_nil hne
          refine ⟨?_, by simp, ?_, ?_, ?_⟩
          · refine List.chain'_cons'.2 ⟨fun b hb => ?_, ichain⟩
            have hb1 : b.1 = g2.1 := by
              rw [hm] at hb ihead
              simp only [List.head?_cons, Option.mem_def, Option.some.injEq] at hb
              simp only [List.head?_cons, Option.map_some', Option.some.injEq] at ihead
              rw [hb] at ihead
              exact ihead
            rw [hb1]
            exact (List.chain'_cons.1 hA).1
          · rw [hm, List.getLast?_cons_cons, ← hm, ilast]
            conv_rhs => rw [List.getLast?_cons_cons]
          · rw [hm, List.dropLast_cons₂, ← hm]
            intro p hp
            rcases List.mem_cons.1 hp with rfl | hp2
            · exact hD p (by rw [List.dropLast_cons₂]; exact List.mem_cons_self _ _)
            · exact idrop p (by rw [hm, List.dropLast_cons₂] at *; exact hp2)
          · intro p hp
            rcases List.mem_cons.1 hp with rfl | hp2
            · exact hE p (List.mem_cons_self _ _)
            · exact iwf p hp2

-- ## Window Partitioner, boundary variant (`compute_bgm_groups`, final_mapping.py)

/-- Stable insertion for the `boundaries.sort()` call. -/
def insertQ (x : ℚ) : List ℚ → List ℚ
  | [] => [x]
  | y :: rest => if y < x then y :: insertQ x rest else x :: y :: rest

/-- Stable sort of the boundary list. -/
def sortQ : List ℚ → List ℚ
  | [] => []
  | x :: rest => insertQ x (sortQ rest)

/-- Candidate split points: shot starts after the first shot, kept only when
strictly inside `(0, duration)`, then sorted. -/
def bgmBoundaries (duration : ℚ) (shots : List (ℚ × ℚ)) : List ℚ :=
  sortQ (((shots.drop 1).map (fun s => s.1)).filter (fun t => 0 < t ∧ t < duration))

/-- The acceptance sweep: accept a boundary `t` only when both
`t - cur ≥ min_bgm_sec` and `duration - t ≥ min_bgm_sec`; returns the groups
and the final cursor. -/
def bgmSweep (minWindow duration cur : ℚ) : List ℚ → List (ℚ × ℚ) × ℚ
  | [] => ([], cur)
  | t :: rest =>
    if minWindow ≤ t - cur ∧ minWindow ≤ duration - t then
      ((cur, t) :: (bgmSweep minWindow duration t rest).1,
        (bgmSweep minWindow duration t rest).2)
    else bgmSweep minWindow duration cur rest

/-- Sweep plus the trailing window, emitted when `duration - cur > 0.1`. -/
def bgmGroupsCore (duration minBgmSec : ℚ) (shots : List (ℚ × ℚ)) :
    List (ℚ × ℚ) :=
  (bgmSweep minBgmSec duration 0 (bgmBoundaries duration shots)).1 ++
    (if 1 / 10 <
        duration - (bgmSweep minBgmSec duration 0 (bgmBoundaries duration shots)).2
     then [((bgmSweep minBgmSec duration 0 (bgmBoundaries duration shots)).2,
        duration)]
     else [])

/-- `compute_bgm_groups` from `final_mapping.py`: raises on `duration ≤ 0`,
returns the single full window when there are no shots. -/
def computeBgmGroups (duration minBgmSec : ℚ) (shots : List (ℚ × ℚ)) :
    Except String (List (ℚ × ℚ)) :=
  if duration ≤ 0 then Except.error "video.duration must be positive"
  else if shots = [] then Except.ok [(0, duration)]
  else Except.ok (bgmGroupsCore duration minBgmSec (sortByStart shots))

theorem bgmSweep_good (bs : List ℚ) (minWindow duration cur : ℚ) :
    List.Chain' (fun a b : ℚ × ℚ => a.2 = b.1)
      (bgmSweep minWindow duration cur bs).1 ∧
    (∀ p ∈ (bgmSweep minWindow duration cur bs).1, minWindow ≤ p.2 - p.1) ∧
    (((bgmSweep minWindow duration cur bs).1 = [] ∧
        (bgmSweep minWindow duration cur bs).2 = cur) ∨
      ((bgmSweep minWindow duration cur bs).1.head?.map (fun p => p.1) =
          some cur ∧
        (bgmSweep minWindow duration cur bs).1.getLast?.map (fun p => p.2) =
          some (bgmSweep minWindow duration cur bs).2 ∧
        minWindow ≤ duration - (bgmSweep minWindow duration cur bs).2)) := by
  induction bs generalizing cur with
  | nil => exact ⟨List.chain'_nil, by simp [bgmSweep], Or.inl ⟨rfl, rfl⟩⟩
  | cons t rest ih =>
      by_cases hc : minWindow ≤ t - cur ∧ minWindow ≤ duration - t
      · obtain ⟨ichain, ilen, icase⟩ := ih t
        rw [bgmSweep, if_pos hc]
        dsimp only
        rcases icase with ⟨hnil, hcur⟩ | ⟨ihead, ilast, hws⟩
        · rw [hnil, hcur]
          refine ⟨List.chain'_singleton _, ?_, Or.inr ⟨by simp, ?_, hc.2⟩⟩
          · intro p hp
            rw [List.mem_singleton] at hp
            subst hp
            simpa using hc.1
          · simp [List.getLast?]
        · refine ⟨?_, ?_, Or.inr ⟨by simp, ?_, hws⟩⟩
          · refine List.chain'_cons'.2 ⟨fun b hb => ?_, ichain⟩
            cases hS : (bgmSweep minWindow duration t rest).1 with
            | nil => rw [hS] at hb; simp at hb
            | cons s0 stl =>
                rw [hS] at hb ihead
                simp only [List.head?_cons, Option.mem_def, Option.some.injEq] at hb
                simp only [List.head?_cons, Option.map_some',
                  Option.some.injEq] at ihead
                show (cur, t).2 = b.1
                rw [← hb]
                simpa using ihead.symm
          · intro p hp
            rcases List.mem_cons.1 hp with rfl | hp2
            · simpa using hc.1
            · exact ilen p hp2
          · cases hS : (bgmSweep minWindow duration t rest).1 with
            | nil => rw [hS] at ihead; simp at ihead
            | cons s0 stl =>
                rw [List.getLast?_cons_cons, ← hS]
                exact ilast
      · rw [bgmSweep, if_neg hc]
        exact ih cur

theorem bgmGroupsCore_good (duration minWindow : ℚ) (shots : List (ℚ × ℚ))
    (hd : 1 / 10 < duration) (hw : 1 / 10 < minWindow) :
    List.Chain' (fun a b : ℚ × ℚ => a.2 = b.1)
      (bgmGroupsCore duration minWindow shots) ∧
    (bgmGroupsCore duration minWindow shots).head?.map (fun p => p.1) = some 0 ∧
    (bgmGroupsCore duration minWindow shots).getLast?.map (fun p => p.2) =
      some duration ∧
    (∀ p ∈ (bgmGroupsCore duration minWindow shots).dropLast,
      minWindow ≤ p.2 - p.1) ∧
    (∀ p ∈ bgmGroupsCore duration minWindow shots, p.1 ≤ p.2) := by
  obtain ⟨schain, slen, scase⟩ :=
    bgmSweep_good (bgmBoundaries duration shots) minWindow duration 0
  rcases scase with ⟨hnil, hcur⟩ | ⟨shead, slast, hws⟩
  · rw [bgmGroupsCore, hnil, hcur, if_pos (by linarith), List.nil_append]
    refine ⟨List.chain'_singleton _, by simp, by simp [List.getLast?], ?_, ?_⟩
    · intro p hp; simp at hp
    · intro p hp
      rw [List.mem_singleton] at hp
      subst hp
      show (0:ℚ) ≤ duration
      linarith
  · have hfin : 1 / 10 <
        duration - (bgmSweep minWindow duration 0 (bgmBoundaries duration shots)).2 := by
      linarith
    rw [bgmGroupsCore, if_pos hfin]
    have hne : (bgmSweep minWindow duration 0 (bgmBoundaries duration shots)).1 ≠ [] := by
      intro h0
      rw [h0] at shead
      exact absurd shead (by simp)
    refine ⟨?_, ?_, ?_, ?_, ?_⟩
    · rw [List.chain'_append]
      refine ⟨schain, List.chain'_singleton _, fun x hx y hy => ?_⟩
      simp only [List.head?_cons, Option.mem_def, Option.some.injEq] at hy
      have hx2 : x.2 = (bgmSweep minWindow duration 0 (bgmBoundaries duration shots)).2 := by
        cases hg : (bgmSweep minWindow duration 0 (bgmBoundaries duration shots)).1.getLast? with
        | none => rw [hg] at hx; exact absurd hx (by simp)
        | some q =>
            rw [hg] at hx slast
            simp only [Option.mem_def, Option.some.injEq] at hx
            simp only [Option.map_some', Option.some.injEq] at slast
            rw [hx] at slast
            exact slast
      rw [← hy, hx2]
    · rw [List.head?_append]
      obtain ⟨s0, stl, hS⟩ := List.exists_cons_of_ne_nil hne
      rw [hS]
      rw [hS] at shead
      simpa using shead
    · rw [List.getLast?_concat]
      simp
    · rw [List.dropLast_concat]
      exact fun p hp => slen p hp
    · intro p hp
      rcases List.mem_append.1 hp with hp1 | hp2
      · have := slen p hp1
        linarith
      · rw [List.mem_singleton] at hp2
        subst hp2
        show (bgmSweep minWindow duration 0 (bgmBoundaries duration shots)).2 ≤ duration
        linarith

-- ## Claim C8 (Window Partitioner guarantees)

/-- Claim C8 (counterexample): the greedy variant does not guarantee
non-overlapping windows for arbitrary sorted shot inputs.  The sorted (but
overlapping) shots `[(0,20), (10,30)]` with `W = 15` produce the windows
`[(0,20), (10,30)]`: the second window starts at `10`, before the first one
ends at `20` — the windows overlap. -/
theorem C8_cex :
    buildBgmGroups [((0:ℚ), 20), (10, 30)] 15 = [(0, 20), (10, 30)] ∧
    (10:ℚ) < 20 := by
  constructor
  · norm_num [buildBgmGroups, buildBgmAux, mergeTail]
  · norm_num

/-- Claim C8 (amended): when the input shots are contiguous
(each shot's start equals the previous shot's end, and `start ≤ end`), the
greedy variant's windows are contiguous, ordered, cover exactly from the first
shot's start to the last shot's end with no gaps or overlaps, and every window
except possibly the last has length `≥ W`; the boundary-acceptance variant
(for any shot list, provided `duration > 0.1` and `W > 0.1`) yields windows
that are contiguous, cover `[0, duration]` exactly, and every window except
possibly the last has length `≥ W`. -/
theorem C8_window_partitioner (sh0 : ℚ × ℚ) (rest : List (ℚ × ℚ))
    (minWindow duration : ℚ) (bshots : List (ℚ × ℚ))
    (hchain : List.Chain' (fun a b : ℚ × ℚ => a.2 = b.1) (sh0 :: rest))
    (hwf : ∀ p ∈ sh0 :: rest, p.1 ≤ p.2)
    (hd : 1 / 10 < duration) (hw : 1 / 10 < minWindow) :
    (List.Chain' (fun a b : ℚ × ℚ => a.2 = b.1)
        (buildBgmGroups (sh0 :: rest) minWindow) ∧
      (buildBgmGroups (sh0 :: rest) minWindow).head?.map (fun p => p.1) =
        some sh0.1 ∧
      (buildBgmGroups (sh0 :: rest) minWindow).getLast?.map (fun p => p.2) =
        some (lastStop sh0.2 rest) ∧
      (∀ p ∈ (buildBgmGroups (sh0 :: rest) minWindow).dropLast,
        minWindow ≤ p.2 - p.1) ∧
      (∀ p ∈ buildBgmGroups (sh0 :: rest) minWindow, p.1 ≤ p.2)) ∧
    (∃ G, computeBgmGroups duration minWindow bshots = Except.ok G ∧
      List.Chain' (fun a b : ℚ × ℚ => a.2 = b.1) G ∧
      G.head?.map (fun p => p.1) = some 0 ∧
      G.getLast?.map (fun p => p.2) = some duration ∧
      (∀ p ∈ G.dropLast, minWindow ≤ p.2 - p.1) ∧
      (∀ p ∈ G, p.1 ≤ p.2)) := by
  constructor
  · have hfirst : ∀ b ∈ rest.head?, b.1 = sh0.2 := by
      intro b hb
      exact ((List.chain'_cons'.1 hchain).1 b hb).symm
    have hwf0 : sh0.1 ≤ sh0.2 := hwf sh0 (List.mem_cons_self _ _)
    have hwf2 : ∀ p ∈ rest, p.1 ≤ p.2 :=
      fun p hp => hwf p (List.mem_cons_of_mem _ hp)
    obtain ⟨achain, ahead, alast, adrop, awf⟩ :=
      buildBgmAux_good rest minWindow sh0.1 sh0.2 hwf0 hwf2 hfirst
        (List.chain'_cons'.1 hchain).2
    obtain ⟨mchain, mhead, mlast, mdrop, mwf⟩ :=
      mergeTail_good minWindow _ achain adrop awf
    show _ ∧ _ ∧ _ ∧ _ ∧ _
    rw [buildBgmGroups]
    exact ⟨mchain, by rw [mhead, ahead], by rw [mlast, alast], mdrop, mwf⟩
  · by_cases hb : bshots = []
    · refine ⟨[(0, duration)], ?_, ?_, by simp, by simp [List.getLast?], ?_, ?_⟩
      · rw [hb, computeBgmGroups, if_neg (not_le.2 (by linarith)), if_pos rfl]
      · exact List.chain'_singleton _
      · intro p hp; simp at hp
      · intro p hp
        rw [List.mem_singleton] at hp
        subst hp
        show (0:ℚ) ≤ duration
        linarith
    · obtain ⟨gchain, ghead, glast, gdrop, gwf⟩ :=
        bgmGroupsCore_good duration minWindow (sortByStart bshots) hd hw
      exact ⟨bgmGroupsCore duration minWindow (sortByStart bshots),
        by rw [computeBgmGroups, if_neg (not_le.2 (by linarith)), if_neg hb],
        gchain, ghead, glast, gdrop, gwf⟩

/-- Claim C8 (witness): concrete scenario 4 — the greedy variant with `W = 15`
on shots `[(0,5), (5,8), (8,20)]` yields the single window `(0,20)`; and a
concrete boundary-variant run on three contiguous 20 s shots against
`duration = 60` yields `[(0,20), (20,40), (40,60)]`; the amended guarantees
applied at these inputs. -/
theorem C8_window_partitioner_witness :
    buildBgmGroups [((0:ℚ), 5), (5, 8), (8, 20)] 15 = [(0, 20)] ∧
    computeBgmGroups 60 15 [((0:ℚ), 20), (20, 40), (40, 60)] =
      Except.ok [(0, 20), (20, 40), (40, 60)] ∧
    (buildBgmGroups [((0:ℚ), 5), (5, 8), (8, 20)] 15).head?.map (fun p => p.1) =
      some 0 ∧
    (buildBgmGroups [((0:ℚ), 5), (5, 8), (8, 20)] 15).getLast?.map (fun p => p.2) =
      some (lastStop 5 [(5, 8), (8, 20)]) ∧
    (∃ G, computeBgmGroups 60 15 [((0:ℚ), 20), (20, 40), (40, 60)] =
        Except.ok G ∧
      List.Chain' (fun a b : ℚ × ℚ => a.2 = b.1) G ∧
      G.head?.map (fun p => p.1) = some 0 ∧
      G.getLast?.map (fun p => p.2) = some 60 ∧
      (∀ p ∈ G.dropLast, (15:ℚ) ≤ p.2 - p.1) ∧
      (∀ p ∈ G, p.1 ≤ p.2)) := by
  have h := C8_window_partitioner (0, 5) [(5, 8), (8, 20)] 15 60
    [((0:ℚ), 20), (20, 40), (40, 60)]
    (by norm_num [List.chain'_cons, List.chain'_singleton])
    (by norm_num) (by norm_num) (by norm_num)
  refine ⟨?_, ?_, h.1.2.1, h.1.2.2.1, h.2⟩
  · norm_num [buildBgmGroups, buildBgmAux, mergeTail]
  · norm_num [computeBgmGroups, bgmGroupsCore, bgmBoundaries, bgmSweep,
      sortByStart, insertByStart, sortQ, insertQ, List.filter_cons,
      List.cons_ne_nil]

-- ## Claim C10 (boundary variant on an empty shot list)

/-- Claim C10: for every positive duration and any minimum window length, an
empty shot list makes `compute_bgm_groups` return exactly the single window
`(0, duration)` — even when `duration < W`, so the minimum-length guarantee is
waived there. -/
theorem C10_empty_shots (duration minBgmSec : ℚ) (hd : 0 < duration) :
    computeBgmGroups duration minBgmSec [] = Except.ok [(0, duration)] := by
  rw [computeBgmGroups, if_neg (not_le.2 hd), if_pos rfl]

/-- Claim C10 (witness): `duration = 7`, `W = 15` (duration smaller than the
minimum window): the single window `(0, 7)` is returned. -/
theorem C10_empty_shots_witness :
    (0:ℚ) < 7 ∧ (7:ℚ) < 15 ∧
    computeBgmGroups 7 15 [] = Except.ok [(0, 7)] :=
  ⟨by norm_num, by norm_num, C10_empty_shots 7 15 (by norm_num)⟩

-- ## Fatal-error signaling (`compute_cut_and_keep_intervals` and `main`)

/-- The analysis document as far as the cut computation reads it: duration,
collected shot intervals, collected segment intervals. -/
structure AnalysisDoc where
  duration : ℚ
  shots : List (ℚ × ℚ)
  segments : List (ℚ × ℚ)

/-- `_add_interval`: clamp both ends into `[0, duration]` and append only when
the clamped length exceeds `EPS`. -/
def addInterval (intervals : List (ℚ × ℚ)) (s e duration : ℚ) : List (ℚ × ℚ) :=
  if EPS < max 0 (min e duration) - max 0 (min s duration)
  then intervals ++ [(max 0 (min s duration), max 0 (min e duration))]
  else intervals

/-- The raw cut list of `compute_cut_and_keep_intervals`: head/tail trims
(2 s each), a ±3.5 s margin around every shot boundary after the first, and
the final 2 s of every segment of length ≥ 15 s. -/
def rawCuts (doc : AnalysisDoc) : List (ℚ × ℚ) :=
  doc.segments.foldl
    (fun acc sg =>
      if sg.2 ≤ sg.1 then acc
      else if 15 ≤ sg.2 - sg.1 then addInterval acc (sg.2 - 2) sg.2 doc.duration
      else acc)
    (((sortByStart doc.shots).drop 1).foldl
      (fun acc sh => addInterval acc (sh.1 - 7 / 2) (sh.1 + 7 / 2) doc.duration)
      (addInterval (addInterval [] 0 2 doc.duration)
        (doc.duration - 2) doc.duration doc.duration))

/-- `compute_cut_and_keep_intervals`: raises `ValueError` (with a fixed message
that does not carry the offending value) when `duration ≤ 0`; otherwise returns
the merged cuts, the keep list (possibly empty, without raising), and the
duration. -/
def computeCutAndKeepIntervals (doc : AnalysisDoc) :
    Except String (List (ℚ × ℚ) × List (ℚ × ℚ) × ℚ) :=
  if doc.duration ≤ 0 then Except.error "[hardcut] video.duration is 0 or less"
  else
    match mergeIntervals (rawCuts doc) with
    | none => Except.error "IndexError"
    | some cutsMerged =>
        Except.ok (cutsMerged, buildKeeps cutsMerged doc.duration, doc.duration)

/-- The decision structure of `main` around the cut computation: a raised
`ValueError` propagates; an empty keep list makes `main` print and return
`None` (modelled `Except.ok none`) — it is not raised as an error. -/
def hardcutMain (doc : AnalysisDoc) :
    Except String (Option (List (ℚ × ℚ) × List (ℚ × ℚ) × ℚ)) :=
  match computeCutAndKeepIntervals doc with
  | Except.error msg => Except.error msg
  | Except.ok (cuts, keeps, duration) =>
      if keeps = [] then Except.ok none
      else Except.ok (some (cuts, keeps, duration))

theorem addInterval_inv (acc : List (ℚ × ℚ)) (s e d : ℚ)
    (h : ∀ p ∈ acc, EPS < p.2 - p.1) :
    ∀ p ∈ addInterval acc s e d, EPS < p.2 - p.1 := by
  intro p hp
  rw [addInterval] at hp
  by_cases hc : EPS < max 0 (min e d) - max 0 (min s d)
  · rw [if_pos hc] at hp
    rcases List.mem_append.1 hp with h1 | h2
    · exact h p h1
    · rw [List.mem_singleton] at h2
      subst h2
      exact hc
  · rw [if_neg hc] at hp
    exact h p hp

theorem foldlCutsInv {β : Type} (step : List (ℚ × ℚ) → β → List (ℚ × ℚ))
    (hstep : ∀ acc b, (∀ p ∈ acc, EPS < p.2 - p.1) →
      ∀ p ∈ step acc b, EPS < p.2 - p.1)
    (l : List β) (acc : List (ℚ × ℚ)) (hacc : ∀ p ∈ acc, EPS < p.2 - p.1) :
    ∀ p ∈ l.foldl step acc, EPS < p.2 - p.1 := by
  induction l generalizing acc with
  | nil => exact hacc
  | cons b rest ih => exact ih (step acc b) (hstep acc b hacc)

theorem rawCuts_inv (doc : AnalysisDoc) :
    ∀ p ∈ rawCuts doc, EPS < p.2 - p.1 := by
  rw [rawCuts]
  refine foldlCutsInv _ (fun acc sg hacc => ?_) _ _
    (foldlCutsInv _ (fun acc sh hacc => addInterval_inv acc _ _ _ hacc) _ _
      (addInterval_inv _ _ _ _
        (addInterval_inv [] _ _ _ (fun p hp => absurd hp (List.not_mem_nil p)))))
  by_cases h1 : sg.2 ≤ sg.1
  · rw [if_pos h1]; exact hacc
  · rw [if_neg h1]
    by_cases h2 : (15:ℚ) ≤ sg.2 - sg.1
    · rw [if_pos h2]; exact addInterval_inv acc _ _ _ hacc
    · rw [if_neg h2]; exact hacc

theorem mergeRawCuts_total (doc : AnalysisDoc) :
    ∃ r, mergeIntervals (rawCuts doc) = some r := by
  by_cases hc : rawCuts doc = []
  · exact ⟨[], by rw [hc, mergeIntervals, if_pos rfl]⟩
  · obtain ⟨p, rest, hpr⟩ := List.exists_cons_of_ne_nil hc
    have hp : EPS < p.2 - p.1 := rawCuts_inv doc p (by rw [hpr]; simp)
    have habs : EPS < |p.2 - p.1| := by
      rwa [abs_of_nonneg (by linarith [EPS_pos] : (0:ℚ) ≤ p.2 - p.1)]
    exact mergeIntervals_total (rawCuts doc) ⟨p, by rw [hpr]; simp, habs⟩

-- ## Claim C9 (fatal-error signaling)

/-- Claim C9 (counterexample): a document with duration 3 s (fully covered by
the 2 s head trim and 2 s tail trim) produces an empty keep-set, yet
`compute_cut_and_keep_intervals` returns it as an ordinary result — and `main`
just stops silently (`return`, modelled `ok none`) — rather than signaling a
typed error; also the `duration ≤ 0` error is a fixed message that does not
carry the offending value. -/
theorem C9_cex :
    computeCutAndKeepIntervals ⟨3, [], []⟩ = Except.ok ([(0, 3)], [], 3) ∧
    hardcutMain ⟨3, [], []⟩ = Except.ok none := by
  have h1 : computeCutAndKeepIntervals ⟨3, [], []⟩ =
      Except.ok ([(0, 3)], [], 3) := by
    norm_num [computeCutAndKeepIntervals, rawCuts, addInterval, sortByStart,
      mergeIntervals, normFilter, insertByStart, mergeAux, buildKeeps,
      buildKeepsAux, EPS, min_def, max_def, List.filter_cons, List.cons_ne_nil,
      List.foldl_nil]
  refine ⟨h1, ?_⟩
  rw [hardcutMain, h1]
  rfl

/-- Claim C9 (amended): `duration ≤ 0` is signaled as a raised typed error,
but with a fixed message that does not carry the offending value; an empty
keep-set after merging is not signaled as an error by the interval
computation — it returns the empty list as an ordinary result, and the
top-level driver checks for it and stops silently (`ok none`); nothing else
fails: for every positive duration the computation returns `ok`. -/
theorem C9_fatal_error_signaling (doc : AnalysisDoc) :
    (doc.duration ≤ 0 →
      computeCutAndKeepIntervals doc =
        Except.error "[hardcut] video.duration is 0 or less") ∧
    (0 < doc.duration →
      ∃ cuts, computeCutAndKeepIntervals doc =
          Except.ok (cuts, buildKeeps cuts doc.duration, doc.duration) ∧
        (buildKeeps cuts doc.duration = [] →
          hardcutMain doc = Except.ok none) ∧
        (buildKeeps cuts doc.duration ≠ [] →
          hardcutMain doc =
            Except.ok (some (cuts, buildKeeps cuts doc.duration, doc.duration)))) := by
  constructor
  · intro h
    rw [computeCutAndKeepIntervals, if_pos h]
  · intro h
    obtain ⟨r, hr⟩ := mergeRawCuts_total doc
    have hok : computeCutAndKeepIntervals doc =
        Except.ok (r, buildKeeps r doc.duration, doc.duration) := by
      rw [computeCutAndKeepIntervals, if_neg (not_le.2 h), hr]
    refine ⟨r, hok, ?_, ?_⟩
    · intro hkeep
      rw [hardcutMain, hok]
      show (if buildKeeps r doc.duration = [] then Except.ok none else _) = _
      rw [if_pos hkeep]
    · intro hkeep
      rw [hardcutMain, hok]
      show (if buildKeeps r doc.duration = [] then _ else _) = _
      rw [if_neg hkeep]

/-- Claim C9 (witness): the amended signaling applied to a document with
duration `-1` (raised fixed-message error) and to the duration-3 document
(returns `ok` with empty keeps; `main` stops with `ok none`). -/
theorem C9_fatal_error_signaling_witness :
    computeCutAndKeepIntervals ⟨-1, [], []⟩ =
      Except.error "[hardcut] video.duration is 0 or less" ∧
    (∃ cuts, computeCutAndKeepIntervals ⟨3, [], []⟩ =
        Except.ok (cuts, buildKeeps cuts 3, 3) ∧
      (buildKeeps cuts 3 = [] → hardcutMain ⟨3, [], []⟩ = Except.ok none) ∧
      (buildKeeps cuts 3 ≠ [] → hardcutMain ⟨3, [], []⟩ =
        Except.ok (some (cuts, buildKeeps cuts 3, 3)))) :=
  ⟨(C9_fatal_error_signaling ⟨-1, [], []⟩).1 (by norm_num),
    (C9_fatal_error_signaling ⟨3, [], []⟩).2 (by norm_num)⟩
